import Mathlib

/-!
# my-shell.c : tokenizer, command-list builder, classifier and executor

A shallow embedding of `src/my-shell.c` and the properties of its
specification.

Conventions of the embedding.

* A C string is the list of its chars before the terminating NUL (`CStr`).
  A `char *` is an `Option CStr`: `none` is the NULL pointer.
* A `char **` block obtained from `malloc` is a `PtrList`: the number of
  pointer slots requested from `malloc`, and the cells the code stores, in
  index order (`cells[i]` is the value stored at `ptrList[i]`).  The block is
  written strictly left to right by `parse`, so the index of the next write
  (`numTokens` in the source) is the number of cells stored so far.  Whether
  a store is inside the block is a separate question, `PtrList.inBounds`.
* A result of type `Option _` is `none` when the C code would read a cell it
  never stored (or walk through a NULL pointer), or when a loop of the model
  is cut by its iteration budget; the theorems show when this cannot happen.
* `parse` and `getCommands` are the record of what the code stores, also
  where a store falls outside the block: they tell what the code attempts.
  `parseChecked` and `getCommandsChecked` are the same code under the rule
  of C that a store outside the allocated block is undefined: their result
  is `none` as soon as such a store happens, and what the functions return
  to their callers is stated with them.
-/

namespace MyShell

/-- The chars of a NUL-terminated C string, terminator excluded. -/
abbrev CStr := List Char

/-! ## libc string functions used by the source -/

/-- C `strspn`: length of the longest prefix of `s` made of chars of `accept`. -/
def strspn : CStr → CStr → Nat
  | [], _ => 0
  | c :: s, accept => if c ∈ accept then strspn s accept + 1 else 0

/-- C `strcspn`: length of the longest prefix of `s` with no char of `reject`. -/
def strcspn : CStr → CStr → Nat
  | [], _ => 0
  | c :: s, reject => if c ∈ reject then 0 else strcspn s reject + 1

/-- C `strtok`, with its hidden static pointer made explicit: `save` is the
saved position before the call, the second component of the result the saved
position after it.  A non-NULL `s` starts a new scan, NULL continues at
`save`.  Leading delimiters are skipped; if nothing is left the result is
NULL; otherwise the token runs up to the next delimiter (which the C code
overwrites with NUL) or to the end of the string. -/
def strtok (s : Option CStr) (delim : CStr) (save : CStr) : Option CStr × CStr :=
  let start := match s with
    | some str => str
    | none => save
  let tokStart := start.drop (strspn start delim)
  if tokStart = [] then (none, [])
  else
    let n := strcspn tokStart delim
    (some (tokStart.take n), tokStart.drop (n + 1))

/-- C `strcmp`: zero on equal strings, otherwise negative or positive as the
first string is below or above the second at the first char that differs (a
string that ends there being the lower one).  The C standard fixes only the
sign of a non-zero result; `-1` and `1` are returned here. -/
def strcmp : CStr → CStr → Int
  | [], [] => 0
  | [], _ :: _ => -1
  | _ :: _, [] => 1
  | a :: s, b :: t => if a = b then strcmp s t else if a.toNat < b.toNat then -1 else 1

/-! ## parse -/

/-- A `char **` block: `slots` pointer slots were requested from `malloc`,
and `cells` are the values the code stored at indices `0, 1, 2, ...`. -/
structure PtrList where
  slots : Nat
  cells : List (Option CStr)
  deriving DecidableEq, Repr

/-- Every store into the block was at an index below the allocated size. -/
def PtrList.inBounds (p : PtrList) : Prop := p.cells.length ≤ p.slots

instance (p : PtrList) : Decidable p.inBounds := by
  unfold PtrList.inBounds; infer_instance

/-- The tokens of a NULL-terminated block: the cells before the first NULL. -/
def PtrList.tokens (p : PtrList) : List CStr :=
  (p.cells.takeWhile Option.isSome).filterMap id

/-- The `while (currentToken != NULL)` loop of `parse` (lines 140-146).
`ptrList` holds the cells stored so far, so `numTokens = ptrList.length`.
The first argument bounds the number of loop tests. -/
def parseLoop (delimiter : CStr) :
    Nat → Option CStr → CStr → List (Option CStr) → Option (List (Option CStr))
  | 0, _, _, _ => none
  | _ + 1, none, _, ptrList => some (ptrList ++ [none])
  | fuel + 1, some currentToken, save, ptrList =>
    let next := strtok none delimiter save
    parseLoop delimiter fuel next.1 next.2 (ptrList ++ [some currentToken])

/-- `parse` (lines 124-148) as a record of its stores.  `string` NULL or
empty: a block of one slot holding NULL.  Otherwise `strlen(string) / 2`
slots are allocated and the tokens `strtok` delivers are stored one after the
other, then NULL, whether or not the index is inside the block
(`PtrList.inBounds` tells); `parseChecked` is the function with the stores
checked. -/
def parse (string : Option CStr) (delimiter : CStr) : Option PtrList :=
  match string with
  | none => some ⟨1, [none]⟩
  | some str =>
    if str = [] then some ⟨1, [none]⟩
    else
      let maxTokens := str.length / 2
      let first := strtok (some str) delimiter []
      (parseLoop delimiter (str.length + 1) first.1 first.2 []).map
        (fun ptrList => ⟨maxTokens, ptrList⟩)

/-! ## getCommands -/

/-- The counting loop of `getCommands` (lines 100-103):
`while (rawCommandList[numCommands] != NULL) numCommands++`.
The first argument bounds the number of loop tests; reading a cell that was
never stored gives `none`. -/
def countLoop (rawCommandList : List (Option CStr)) : Nat → Nat → Option Nat
  | 0, _ => none
  | fuel + 1, numCommands =>
    match rawCommandList[numCommands]? with
    | none => none
    | some none => some numCommands
    | some (some _) => countLoop rawCommandList fuel (numCommands + 1)

/-- The filling loop of `getCommands` (lines 107-109):
`for (i = 0; i < numCommands; i++) commandList[i] = parse(rawCommandList[i], " \t\n")`.
The first argument is the number of iterations left, `numCommands - i`. -/
def fillLoop (rawCommandList : List (Option CStr)) :
    Nat → Nat → List (Option PtrList) → Option (List (Option PtrList))
  | 0, _, commandList => some commandList
  | left + 1, i, commandList =>
    match rawCommandList[i]? with
    | none => none
    | some sub =>
      match parse sub " \t\n".toList with
      | none => none
      | some argList => fillLoop rawCommandList left (i + 1) (commandList ++ [some argList])

/-- `getCommands` (lines 95-114) over the record of stores of `parse`, the
line read by `readInput` being the argument (`none`: `readInput` returned
NULL).  The result is the `char ***` block: one cell per sub-command, then
the NULL cell; its `numCommands + 1` slots hold exactly these cells.
`getCommandsChecked` is the function with the stores of `parse` checked. -/
def getCommands (input : Option CStr) : Option (List (Option PtrList)) :=
  match parse input "#".toList with
  | none => none
  | some rawCommandList =>
    match countLoop rawCommandList.cells rawCommandList.cells.length 0 with
    | none => none
    | some numCommands =>
      match fillLoop rawCommandList.cells numCommands 0 [] with
      | none => none
      | some commandList => some (commandList ++ [none])

/-! ## parse and getCommands with the stores checked -/

/-- The `while (currentToken != NULL)` loop of `parse` (lines 140-146) with
each store `ptrList[numTokens] = ...` checked against the `maxTokens` slots
of the block (`numTokens = ptrList.length`): a store at an index that is not
below `maxTokens` is undefined in C, and the result is `none`. -/
def parseLoopChecked (delimiter : CStr) (maxTokens : Nat) :
    Nat → Option CStr → CStr → List (Option CStr) → Option (List (Option CStr))
  | 0, _, _, _ => none
  | _ + 1, none, _, ptrList =>
    if ptrList.length < maxTokens then some (ptrList ++ [none]) else none
  | fuel + 1, some currentToken, save, ptrList =>
    if ptrList.length < maxTokens then
      let next := strtok none delimiter save
      parseLoopChecked delimiter maxTokens fuel next.1 next.2 (ptrList ++ [some currentToken])
    else none

/-- `parse` (lines 124-148) with the stores checked: the block it returns to
its caller, `none` when a store fell outside the `strlen(string) / 2` slots.
In the branch for NULL and the empty string the one store is at index 0 of a
block of one slot. -/
def parseChecked (string : Option CStr) (delimiter : CStr) : Option PtrList :=
  match string with
  | none => some ⟨1, [none]⟩
  | some str =>
    if str = [] then some ⟨1, [none]⟩
    else
      let maxTokens := str.length / 2
      let first := strtok (some str) delimiter []
      (parseLoopChecked delimiter maxTokens (str.length + 1) first.1 first.2 []).map
        (fun ptrList => ⟨maxTokens, ptrList⟩)

/-- The filling loop of `getCommands` (lines 107-109) over `parseChecked`. -/
def fillLoopChecked (rawCommandList : List (Option CStr)) :
    Nat → Nat → List (Option PtrList) → Option (List (Option PtrList))
  | 0, _, commandList => some commandList
  | left + 1, i, commandList =>
    match rawCommandList[i]? with
    | none => none
    | some sub =>
      match parseChecked sub " \t\n".toList with
      | none => none
      | some argList =>
        fillLoopChecked rawCommandList left (i + 1) (commandList ++ [some argList])

/-- `getCommands` (lines 95-114) with the stores of `parse` checked: the
command list it returns to `main`, `none` when one of its calls of `parse`
stored outside its block.  When every store is inside its block,
`free(input)` (line 98) and `freeList(rawCommandList)` (line 112) release
blocks that the result does not refer to (the tokens of the result are
copies made by the second round of `parse`) and do not change it. -/
def getCommandsChecked (input : Option CStr) : Option (List (Option PtrList)) :=
  match parseChecked input "#".toList with
  | none => none
  | some rawCommandList =>
    match countLoop rawCommandList.cells rawCommandList.cells.length 0 with
    | none => none
    | some numCommands =>
      match fillLoopChecked rawCommandList.cells numCommands 0 [] with
      | none => none
      | some commandList => some (commandList ++ [none])

/-! ## The classifier functions and the body of the shell loop -/

/-- `isExitCommand` (lines 150-152):
`(strcmp(tokenList[0], "exit") == 0 || strcmp(tokenList[0], "quit") == 0) && tokenList[1] == NULL`.
`none` when `tokenList[0]` is NULL (`strcmp` would dereference it) or when a
cell read was never stored. -/
def isExitCommand (tokenList : PtrList) : Option Bool :=
  match tokenList.cells[0]? with
  | none => none
  | some none => none
  | some (some t0) =>
    if strcmp t0 "exit".toList = 0 ∨ strcmp t0 "quit".toList = 0 then
      match tokenList.cells[1]? with
      | none => none
      | some t1 => some (t1 == none)
    else some false

/-- `isCDCommand` (lines 154-156):
`strcmp(tokenList[0], "cd") == 0 || strcmp(tokenList[0], "chdir") == 0`. -/
def isCDCommand (tokenList : PtrList) : Option Bool :=
  match tokenList.cells[0]? with
  | none => none
  | some none => none
  | some (some t0) =>
    some (decide (strcmp t0 "cd".toList = 0 ∨ strcmp t0 "chdir".toList = 0))

/-- What one pass through the body of `while (1)` in `main` (lines 79-90)
does with the command list. -/
inductive Step where
  /-- `commandList[0][0] == NULL`: nothing is done. -/
  | nothing
  /-- `isExitCommand`: `break`, then `return 0`. -/
  | exit
  /-- `isCDCommand`: the call `chdir(commandList[0][1])`. -/
  | chdir (path : Option CStr)
  /-- Otherwise: the call `executeCommands(commandList)`. -/
  | execute (commandList : List (Option PtrList))
  deriving DecidableEq, Repr

/-- The body of the shell loop after `getCommands` (lines 79-89). -/
def mainBody (commandList : List (Option PtrList)) : Option Step :=
  match commandList[0]? with
  | none => none
  | some none => none
  | some (some first) =>
    match first.cells[0]? with
    | none => none
    | some none => some Step.nothing
    | some (some _) =>
      match isExitCommand first with
      | none => none
      | some true => some Step.exit
      | some false =>
        match isCDCommand first with
        | none => none
        | some true =>
          match first.cells[1]? with
          | none => none
          | some path => some (Step.chdir path)
        | some false => some (Step.execute commandList)

/-- The four classes of section 4.3 of the specification. -/
inductive CommandClass where
  | Empty
  | Exit
  | ChangeDirectory
  | External
  deriving DecidableEq, Repr

/-- The class a pass of the loop body stands for. -/
def Step.commandClass : Step → CommandClass
  | Step.nothing => CommandClass.Empty
  | Step.exit => CommandClass.Exit
  | Step.chdir _ => CommandClass.ChangeDirectory
  | Step.execute _ => CommandClass.External

/-! ## executeCommands -/

/-- The operating-system operations a process performs. -/
inductive Event where
  /-- A call of `fork()` and the value it returned in this process. -/
  | fork (ret : Int)
  /-- A call of `execvp(file, argv)`. -/
  | execvp (file : Option CStr) (argv : PtrList)
  /-- Text written to standard error. -/
  | stderr (text : CStr)
  /-- A call of `exit(status)`. -/
  | exit (status : Int)
  /-- A call of `waitpid(pid, &status, 0)`; `none`: `pid` was never assigned. -/
  | waitpid (pid : Option Int)
  /-- A call of `chdir(path)`. -/
  | chdir (path : Option CStr)
  deriving DecidableEq, Repr

/-- How the run of `executeCommands` ends in a process. -/
inductive Outcome where
  /-- The function returned to its caller. -/
  | returned
  /-- The process ended through `exit(status)`. -/
  | exited (status : Int)
  /-- The call of `execvp` succeeded: the process runs another program. -/
  | replaced
  /-- The call `execvp(NULL, ...)`, whose behaviour C leaves undefined. -/
  | undefined
  deriving DecidableEq, Repr

/-- The `for` loop of `executeCommands` (lines 162-173) as it runs in one
process.  `forkRets` are the values the successive calls of `fork()` return
in this process (positive: this process is the parent of a new child; `0`:
this process is the new child; negative: no child was created), `execOk`
tells whether a call of `execvp` by this process succeeds.  The arguments
after `forkRets` are `i`, `pid` (`none` before the first assignment) and the
events so far.  `none`: the process calls `fork()` more often than
`forkRets` tells, or reads a cell that was never stored. -/
def executeLoop (commandList : List (Option PtrList)) (execOk : Bool) :
    List Int → Nat → Option Int → List Event → Option (List Event × Outcome)
  | [], i, pid, trace =>
    match commandList[i]? with
    | some none => some (trace ++ [Event.waitpid pid], Outcome.returned)
    | _ => none
  | ret :: forkRets, i, pid, trace =>
    match commandList[i]? with
    | none => none
    | some none => some (trace ++ [Event.waitpid pid], Outcome.returned)
    | some (some argList) =>
      if ret = 0 then
        match argList.cells[0]? with
        | none => none
        | some none =>
          some (trace ++ [Event.fork ret, Event.execvp none argList], Outcome.undefined)
        | some (some prog) =>
          if execOk then
            some (trace ++ [Event.fork ret, Event.execvp (some prog) argList], Outcome.replaced)
          else
            some (trace ++ [Event.fork ret, Event.execvp (some prog) argList,
              Event.stderr ("purvis: ".toList ++ prog ++ ": command not found\n".toList),
              Event.exit 1], Outcome.exited 1)
      else
        executeLoop commandList execOk forkRets (i + 1) (some ret) (trace ++ [Event.fork ret])

/-- `executeCommands` (lines 158-175): `pid` starts unassigned, `i` at 0. -/
def executeCommands (commandList : List (Option PtrList)) (forkRets : List Int)
    (execOk : Bool) : Option (List Event × Outcome) :=
  executeLoop commandList execOk forkRets 0 none []

/-! ## One pass of the shell loop, with its effects -/

/-- The body of the shell loop (lines 79-90) as it runs in one process, with
the operating-system operations it performs.  `Outcome.returned`: control is
back at the head of `while (1)`; `Outcome.exited 0`: the loop was left
through `break` and `main` returned 0; the other outcomes are those of
`executeCommands`. -/
def mainIteration (commandList : List (Option PtrList)) (forkRets : List Int)
    (execOk : Bool) : Option (List Event × Outcome) :=
  match mainBody commandList with
  | none => none
  | some Step.nothing => some ([], Outcome.returned)
  | some Step.exit => some ([], Outcome.exited 0)
  | some (Step.chdir path) => some ([Event.chdir path], Outcome.returned)
  | some (Step.execute commandList) => executeCommands commandList forkRets execOk

/-- One pass of `while (1)` in `main` (lines 76-90) for the line `readInput`
delivers: `getCommands`, then the body. -/
def shellIteration (input : Option CStr) (forkRets : List Int) (execOk : Bool) :
    Option (List Event × Outcome) :=
  match getCommands input with
  | none => none
  | some commandList => mainIteration commandList forkRets execOk

/-- The working directory of a process after the events, from `cwd` before
them: only a call of `chdir` touches it, and `sys path dir` is the directory
the operating system leaves the process in when `chdir(path)` is called in
`dir` (the target on success, `dir` on failure). -/
def cwdAfter (sys : Option CStr → CStr → CStr) (cwd : CStr) (events : List Event) : CStr :=
  events.foldl
    (fun dir e =>
      match e with
      | Event.chdir path => sys path dir
      | _ => dir)
    cwd

/-- The number of calls of `fork()` among the events. -/
def forkCount (events : List Event) : Nat :=
  events.countP
    (fun e =>
      match e with
      | Event.fork _ => true
      | _ => false)

/-- Tokenize `s` with `parse`, its stores checked, and rejoin the tokens
with the single char `d`. -/
def normalizeChecked (d : Char) (D : CStr) (s : CStr) : Option CStr :=
  (parseChecked (some s) D).map (fun p => List.intercalate [d] p.tokens)

/-! ## The splitting rule, stated independently of the code -/

/-- The maximal runs of non-delimiter chars of `s`, left to right: the pieces
of `s` between delimiter chars, the empty pieces left out. -/
def maximalRuns (s : CStr) (D : CStr) : List CStr :=
  (s.splitOnP (fun c => decide (c ∈ D))).filter (fun t => decide (t ≠ []))

/-- A NULL-terminated block holding exactly the tokens `ts`. -/
def nullTerminated (ts : List CStr) : List (Option CStr) := ts.map some ++ [none]

/-- The tokens of `s` and the NULL end marker fit the block `parse` allocates:
`s` is empty (one slot for the marker), or the number of maximal runs plus one
is at most `strlen(s) / 2`. -/
def storesFit (s : CStr) (D : CStr) : Prop :=
  s = [] ∨ (maximalRuns s D).length + 1 ≤ s.length / 2

instance (s D : CStr) : Decidable (storesFit s D) := by
  unfold storesFit; infer_instance

/-- The block is a NULL-terminated list: its cells are its tokens, then NULL. -/
def PtrList.wellFormed (p : PtrList) : Prop := p.cells = nullTerminated p.tokens

instance (p : PtrList) : Decidable p.wellFormed := by
  unfold PtrList.wellFormed; infer_instance

/-- The whitespace delimiters `getCommands` passes to `parse`. -/
def whitespace : CStr := " \t\n".toList

/-- The block of a non-empty sub-command string: `strlen / 2` slots, holding
its whitespace-separated maximal runs and NULL. -/
def argListOf (sub : CStr) : PtrList :=
  ⟨sub.length / 2, nullTerminated (maximalRuns sub whitespace)⟩

/-- The classification of section 4.3 of the specification, by the tokens of
the first argument list: no token, Empty; the single token `exit` or `quit`,
Exit; first token `cd` or `chdir`, ChangeDirectory; anything else, External. -/
def classify (ts : List CStr) : CommandClass :=
  if ts = [] then CommandClass.Empty
  else if ts = ["exit".toList] ∨ ts = ["quit".toList] then CommandClass.Exit
  else if ts.head? = some "cd".toList ∨ ts.head? = some "chdir".toList then
    CommandClass.ChangeDirectory
  else CommandClass.External

/-- The string without its leading and its trailing delimiter chars. -/
def trimDelims (D : CStr) (s : CStr) : CStr :=
  (s.dropWhile (fun c => decide (c ∈ D))).rdropWhile (fun c => decide (c ∈ D))

/-- The string with every run of delimiter chars replaced by the single char
`d`.  The flag tells that the char before was a delimiter, whose run has
already been replaced. -/
def collapseDelims (d : Char) (D : CStr) : Bool → CStr → CStr
  | _, [] => []
  | inRun, c :: s =>
    if c ∈ D then
      if inRun then collapseDelims d D true s else d :: collapseDelims d D true s
    else c :: collapseDelims d D false s

/-- The string starts with a delimiter char. -/
def startsWithDelim (D : CStr) : CStr → Bool
  | [] => false
  | c :: _ => decide (c ∈ D)

/-- A string of length `n` that alternates the char `a` with a space:
`a`, `a `, `a a`, `a a `, ... -/
def alternating : Nat → CStr
  | 0 => []
  | 1 => "a".toList
  | n + 2 => "a ".toList ++ alternating n

/-! ## Lemmas on the tokenizer -/

theorem splitOnP_strcspn (D : CStr) (s : CStr) :
    s.splitOnP (fun c => decide (c ∈ D)) =
      s.take (strcspn s D) ::
        (if strcspn s D < s.length
          then (s.drop (strcspn s D + 1)).splitOnP (fun c => decide (c ∈ D)) else []) := by
  induction s with
  | nil => simp [strcspn]
  | cons c s ih =>
    rw [List.splitOnP_cons]
    by_cases hc : c ∈ D
    · simp [strcspn, hc]
    · rw [ih]; simp [strcspn, hc]

theorem maximalRuns_nil (D : CStr) : maximalRuns [] D = [] := by
  simp [maximalRuns]

theorem maximalRuns_cons_delim (D : CStr) (c : Char) (s : CStr) (hc : c ∈ D) :
    maximalRuns (c :: s) D = maximalRuns s D := by
  simp [maximalRuns, List.splitOnP_cons, hc]

theorem maximalRuns_cons_tok (D : CStr) (c : Char) (s : CStr) (hc : c ∉ D) :
    maximalRuns (c :: s) D =
      (c :: s.take (strcspn s D)) :: maximalRuns (s.drop (strcspn s D + 1)) D := by
  unfold maximalRuns
  rw [List.splitOnP_cons, splitOnP_strcspn D s]
  by_cases hlt : strcspn s D < s.length
  · simp [hc, hlt]
  · have hd : s.drop (strcspn s D + 1) = [] := by
      apply List.drop_eq_nil_of_le; omega
    simp [hc, hlt, hd]

theorem strtok_some_eq (D str save : CStr) :
    strtok (some str) D save = strtok none D str := rfl

theorem strtok_cons_delim (D : CStr) (c : Char) (s : CStr) (hc : c ∈ D) :
    strtok none D (c :: s) = strtok none D s := by
  simp [strtok, strspn, hc]

theorem strtok_cons_tok (D : CStr) (c : Char) (s : CStr) (hc : c ∉ D) :
    strtok none D (c :: s) =
      (some (c :: s.take (strcspn s D)), s.drop (strcspn s D + 1)) := by
  simp [strtok, strspn, strcspn, hc]

/-- One call of `strtok` delivers the first maximal run and leaves the
remaining runs behind the saved position. -/
theorem strtok_maximalRuns (D : CStr) (s : CStr) :
    (strtok none D s).1 = (maximalRuns s D).head? ∧
      maximalRuns (strtok none D s).2 D = (maximalRuns s D).tail := by
  induction s with
  | nil => simp [strtok, strspn, maximalRuns_nil]
  | cons c s ih =>
    by_cases hc : c ∈ D
    · rw [strtok_cons_delim D c s hc, maximalRuns_cons_delim D c s hc]; exact ih
    · rw [strtok_cons_tok D c s hc, maximalRuns_cons_tok D c s hc]; simp

theorem maximalRuns_length (D : CStr) :
    ∀ (n : Nat) (s : CStr), s.length ≤ n → 2 * (maximalRuns s D).length ≤ s.length + 1 := by
  intro n
  induction n with
  | zero =>
    intro s hs
    have : s = [] := List.length_eq_zero.mp (by omega)
    subst this; simp [maximalRuns_nil]
  | succ n ih =>
    intro s hs
    cases s with
    | nil => simp [maximalRuns_nil]
    | cons c s =>
      have hs' : s.length ≤ n := by simpa using hs
      by_cases hc : c ∈ D
      · rw [maximalRuns_cons_delim D c s hc]
        have := ih s hs'
        simp only [List.length_cons]; omega
      · rw [maximalRuns_cons_tok D c s hc]
        have hd : (s.drop (strcspn s D + 1)).length ≤ n := by
          rw [List.length_drop]; omega
        have := ih _ hd
        rw [List.length_drop] at this
        simp only [List.length_cons]; omega

theorem parseLoop_none (D : CStr) (fuel : Nat) (save : CStr) (acc : List (Option CStr)) :
    parseLoop D (fuel + 1) none save acc = some (acc ++ [none]) := rfl

theorem parseLoop_some (D : CStr) :
    ∀ (fuel : Nat) (t : CStr) (save : CStr) (acc : List (Option CStr)),
      (maximalRuns save D).length + 2 ≤ fuel →
      parseLoop D fuel (some t) save acc
        = some (acc ++ some t :: nullTerminated (maximalRuns save D)) := by
  intro fuel
  induction fuel with
  | zero => intro t save acc h; omega
  | succ fuel ih =>
    intro t save acc h
    obtain ⟨h1, h2⟩ := strtok_maximalRuns D save
    simp only [parseLoop]
    cases hr : maximalRuns save D with
    | nil =>
      rw [hr] at h1 h
      rw [h1]
      obtain ⟨k, rfl⟩ : ∃ k, fuel = k + 1 := ⟨fuel - 1, by simp at h; omega⟩
      simp [parseLoop, nullTerminated]
    | cons t2 rest =>
      rw [hr] at h1 h2 h
      simp only [List.head?_cons, List.tail_cons] at h1 h2
      rw [h1, ih t2 _ _ (by rw [h2]; simp at h; omega), h2]
      simp [nullTerminated]

/-- What `parse` computes on a non-empty string, in closed form. -/
theorem parse_eq (s : CStr) (D : CStr) (hs : s ≠ []) :
    parse (some s) D = some ⟨s.length / 2, nullTerminated (maximalRuns s D)⟩ := by
  have hlen := maximalRuns_length D s.length s (le_refl _)
  obtain ⟨h1, h2⟩ := strtok_maximalRuns D s
  simp only [parse, hs, if_false, strtok_some_eq]
  cases hr : maximalRuns s D with
  | nil =>
    rw [hr] at h1
    rw [h1]
    simp [parseLoop, nullTerminated]
  | cons t rest =>
    rw [hr] at h1 h2 hlen
    simp only [List.head?_cons, List.tail_cons] at h1 h2
    rw [h1, parseLoop_some D _ t _ [] (by rw [h2]; simp at hlen; omega), h2]
    simp [nullTerminated]

theorem parse_empty (string : Option CStr) (D : CStr) (h : string = none ∨ string = some []) :
    parse string D = some ⟨1, [none]⟩ := by
  rcases h with rfl | rfl <;> simp [parse]

theorem parse_total (string : Option CStr) (D : CStr) : ∃ p, parse string D = some p := by
  cases string with
  | none => exact ⟨_, rfl⟩
  | some s =>
    by_cases hs : s = []
    · exact ⟨_, parse_empty _ D (Or.inr (by rw [hs]))⟩
    · exact ⟨_, parse_eq s D hs⟩

theorem mem_maximalRuns_ne_nil (s D t : CStr) (h : t ∈ maximalRuns s D) : t ≠ [] := by
  simp [maximalRuns] at h
  exact h.2

/-! ## Lemmas on getCommands -/

theorem nullTerminated_getElem?_lt (ts : List CStr) (i : Nat) (h : i < ts.length) :
    (nullTerminated ts)[i]? = some (some (ts.get ⟨i, h⟩)) := by
  simp [nullTerminated, List.getElem?_append_left, h]

theorem nullTerminated_getElem?_length (ts : List CStr) :
    (nullTerminated ts)[ts.length]? = some none := by
  simp [nullTerminated]

theorem countLoop_nullTerminated (ts : List CStr) :
    ∀ (fuel n : Nat), n ≤ ts.length → ts.length - n + 1 ≤ fuel →
      countLoop (nullTerminated ts) fuel n = some ts.length := by
  intro fuel
  induction fuel with
  | zero => intro n _ h; omega
  | succ fuel ih =>
    intro n hn hf
    rcases Nat.lt_or_ge n ts.length with hlt | hge
    · simp only [countLoop, nullTerminated_getElem?_lt ts n hlt]
      exact ih (n + 1) hlt (by omega)
    · have : n = ts.length := by omega
      subst this
      simp only [countLoop, nullTerminated_getElem?_length]

theorem fillLoop_nullTerminated (ts : List CStr) (hne : ∀ t ∈ ts, t ≠ []) :
    ∀ (left i : Nat) (acc : List (Option PtrList)), i + left = ts.length →
      fillLoop (nullTerminated ts) left i acc
        = some (acc ++ (ts.drop i).map (fun t => some (argListOf t))) := by
  intro left
  induction left with
  | zero =>
    intro i acc h
    have : ts.drop i = [] := List.drop_eq_nil_of_le (by omega)
    simp [fillLoop, this]
  | succ left ih =>
    intro i acc h
    have hlt : i < ts.length := by omega
    have hp := parse_eq (ts.get ⟨i, hlt⟩) whitespace (hne _ (List.get_mem _ _ _))
    unfold whitespace at hp
    simp only [fillLoop, nullTerminated_getElem?_lt ts i hlt, hp]
    rw [ih (i + 1) _ (by omega)]
    rw [List.drop_eq_getElem_cons hlt]
    simp only [List.map_cons, List.append_assoc, List.singleton_append, argListOf, whitespace,
      List.get_eq_getElem]

/-- What `getCommands` computes, in closed form: one block per maximal run of
the line between `#` chars, then the NULL cell. -/
theorem getCommands_eq (input : Option CStr) :
    getCommands input
      = some ((maximalRuns (input.getD []) "#".toList).map (fun t => some (argListOf t))
          ++ [none]) := by
  have hcells : ∃ slots, parse input "#".toList
      = some ⟨slots, nullTerminated (maximalRuns (input.getD []) "#".toList)⟩ := by
    cases input with
    | none => exact ⟨1, by simp [parse, maximalRuns_nil, nullTerminated]⟩
    | some s =>
      by_cases hs : s = []
      · subst hs; exact ⟨1, by simp [parse, maximalRuns_nil, nullTerminated]⟩
      · exact ⟨_, parse_eq s _ hs⟩
  obtain ⟨slots, hp⟩ := hcells
  have hlen : (nullTerminated (maximalRuns (input.getD []) "#".toList)).length
      = (maximalRuns (input.getD []) "#".toList).length + 1 := by
    simp [nullTerminated]
  simp only [getCommands, hp, hlen]
  rw [countLoop_nullTerminated _ _ 0 (Nat.zero_le _) (by omega)]
  simp only
  rw [fillLoop_nullTerminated _ (fun t ht => mem_maximalRuns_ne_nil _ _ t ht) _ 0 [] (by omega)]
  simp

theorem maximalRuns_all_delim (s D : CStr) (h : ∀ c ∈ s, c ∈ D) : maximalRuns s D = [] := by
  induction s with
  | nil => exact maximalRuns_nil D
  | cons c s ih =>
    rw [maximalRuns_cons_delim D c s (h c (List.mem_cons_self _ _))]
    exact ih (fun x hx => h x (List.mem_cons_of_mem _ hx))

theorem maximalRuns_no_delim (s D : CStr) (hs : s ≠ []) (h : ∀ c ∈ s, c ∉ D) :
    maximalRuns s D = [s] := by
  unfold maximalRuns
  rw [List.splitOnP_eq_single]
  · simp [hs]
  · intro x hx; simpa using h x hx

/-! ## Lemmas on the classifier -/

theorem strcmp_eq_zero : ∀ (a b : CStr), strcmp a b = 0 ↔ a = b
  | [], [] => by simp [strcmp]
  | [], _ :: _ => by simp [strcmp]
  | _ :: _, [] => by simp [strcmp]
  | a :: s, b :: t => by
    by_cases h : a = b
    · simp [strcmp, h, strcmp_eq_zero s t]
    · by_cases h2 : a.toNat < b.toNat <;> simp [strcmp, h, h2]

theorem isExitCommand_eq (slots : Nat) (t : CStr) (rest : List CStr) :
    isExitCommand ⟨slots, nullTerminated (t :: rest)⟩
      = some (decide ((t = "exit".toList ∨ t = "quit".toList) ∧ rest = [])) := by
  simp only [isExitCommand, nullTerminated, List.map_cons, List.cons_append,
    List.getElem?_cons_zero, List.getElem?_cons_succ, strcmp_eq_zero]
  by_cases h : t = "exit".toList ∨ t = "quit".toList
  · rw [if_pos h]
    cases rest with
    | nil => simp only [List.map_nil, List.nil_append, List.getElem?_cons_zero, h]; rfl
    | cons r rest =>
      simp only [List.map_cons, List.cons_append, List.getElem?_cons_zero, h]
      simp
  · rw [if_neg h]
    simp only [h, false_and, decide_False]

theorem isCDCommand_eq (slots : Nat) (t : CStr) (rest : List CStr) :
    isCDCommand ⟨slots, nullTerminated (t :: rest)⟩
      = some (decide (t = "cd".toList ∨ t = "chdir".toList)) := by
  simp [isCDCommand, nullTerminated, strcmp_eq_zero]

theorem nullTerminated_getElem?_one (t : CStr) (rest : List CStr) :
    (nullTerminated (t :: rest))[1]? = some rest.head? := by
  cases rest <;> simp [nullTerminated]

theorem mainBody_nil (slots : Nat) (rest : List (Option PtrList)) :
    mainBody (some ⟨slots, nullTerminated []⟩ :: rest) = some Step.nothing := by
  simp [mainBody, nullTerminated]

/-- The loop body on a command list whose first argument list has a token, in
closed form. -/
theorem mainBody_cons (slots : Nat) (t : CStr) (tl : List CStr)
    (rest : List (Option PtrList)) :
    mainBody (some ⟨slots, nullTerminated (t :: tl)⟩ :: rest)
      = some (if (t = "exit".toList ∨ t = "quit".toList) ∧ tl = [] then Step.exit
          else if t = "cd".toList ∨ t = "chdir".toList then Step.chdir tl.head?
          else Step.execute (some ⟨slots, nullTerminated (t :: tl)⟩ :: rest)) := by
  have h0 : (nullTerminated (t :: tl))[0]? = some (some t) := by simp [nullTerminated]
  simp only [mainBody, List.getElem?_cons_zero, h0, isExitCommand_eq, isCDCommand_eq,
    nullTerminated_getElem?_one]
  by_cases h1 : (t = "exit".toList ∨ t = "quit".toList) ∧ tl = []
  · rw [if_pos h1, decide_eq_true h1]
  · rw [if_neg h1, decide_eq_false h1]
    by_cases h2 : t = "cd".toList ∨ t = "chdir".toList
    · rw [if_pos h2, decide_eq_true h2]
    · rw [if_neg h2, decide_eq_false h2]

theorem mainBody_class (slots : Nat) (ts : List CStr) (rest : List (Option PtrList)) :
    (mainBody (some ⟨slots, nullTerminated ts⟩ :: rest)).map Step.commandClass
      = some (classify ts) := by
  cases ts with
  | nil => rw [mainBody_nil]; rfl
  | cons t tl =>
    rw [mainBody_cons]
    unfold classify
    rw [if_neg (List.cons_ne_nil t tl)]
    by_cases h1 : (t = "exit".toList ∨ t = "quit".toList) ∧ tl = []
    · have h1' : t :: tl = ["exit".toList] ∨ t :: tl = ["quit".toList] := by
        simp only [List.cons.injEq]; tauto
      rw [if_pos h1, if_pos h1']; rfl
    · have h1' : ¬ (t :: tl = ["exit".toList] ∨ t :: tl = ["quit".toList]) := by
        simp only [List.cons.injEq]; tauto
      rw [if_neg h1, if_neg h1']
      by_cases h2 : t = "cd".toList ∨ t = "chdir".toList
      · have h2' : (t :: tl).head? = some "cd".toList ∨ (t :: tl).head? = some "chdir".toList := by
          simp only [List.head?_cons, Option.some.injEq]; exact h2
        rw [if_pos h2, if_pos h2']; rfl
      · have h2' : ¬ ((t :: tl).head? = some "cd".toList ∨
            (t :: tl).head? = some "chdir".toList) := by
          simp only [List.head?_cons, Option.some.injEq]; exact h2
        rw [if_neg h2, if_neg h2']; rfl

/-! ## Lemmas on executeCommands -/

theorem foldl_some_eq_getLast? (pids : List Int) :
    ∀ pid : Option Int, pids ≠ [] →
      pids.foldl (fun _ r => some r) pid = pids.getLast? := by
  induction pids with
  | nil => intro pid h; exact absurd rfl h
  | cons r pids ih =>
    intro pid _
    cases pids with
    | nil => rfl
    | cons r2 pids =>
      rw [List.foldl_cons, ih (some r) (List.cons_ne_nil _ _), List.getLast?_cons_cons]

/-- While `fork()` returns non-zero values the loop goes on in the same
process: one `fork` event per argument list, `pid` the latest value. -/
theorem executeLoop_forks (commandList : List (Option PtrList)) (execOk : Bool) :
    ∀ (pids : List Int) (i : Nat) (pid : Option Int) (trace : List Event) (more : List Int),
      (∀ r ∈ pids, r ≠ 0) →
      (∀ j, j < pids.length → ∃ a, commandList[i + j]? = some (some a)) →
      executeLoop commandList execOk (pids ++ more) i pid trace
        = executeLoop commandList execOk more (i + pids.length)
            (pids.foldl (fun _ r => some r) pid) (trace ++ pids.map Event.fork) := by
  intro pids
  induction pids with
  | nil => intro i pid trace more _ _; simp
  | cons r pids ih =>
    intro i pid trace more hnz hcell
    obtain ⟨a, ha⟩ := hcell 0 (by simp)
    have hr : r ≠ 0 := hnz r (List.mem_cons_self _ _)
    rw [Nat.add_zero] at ha
    rw [List.cons_append]
    simp only [executeLoop, ha, hr, if_false]
    rw [ih (i + 1) (some r) _ more (fun x hx => hnz x (List.mem_cons_of_mem _ hx))
      (fun j hj => by
        have := hcell (j + 1) (by simpa using hj)
        rwa [show i + (j + 1) = i + 1 + j by omega] at this)]
    simp only [List.length_cons, List.foldl_cons, List.map_cons, List.append_assoc,
      List.singleton_append]
    rw [show i + 1 + pids.length = i + (pids.length + 1) by omega]

theorem executeLoop_end (commandList : List (Option PtrList)) (execOk : Bool) (i : Nat)
    (pid : Option Int) (trace : List Event) (forkRets : List Int)
    (h : commandList[i]? = some none) :
    executeLoop commandList execOk forkRets i pid trace
      = some (trace ++ [Event.waitpid pid], Outcome.returned) := by
  cases forkRets <;> simp only [executeLoop, h]

theorem cells_getElem?_lt (argLists : List PtrList) (rest : List (Option PtrList)) (i : Nat)
    (h : i < argLists.length) :
    (argLists.map some ++ rest)[i]? = some (some (argLists.get ⟨i, h⟩)) := by
  simp [List.getElem?_append_left, h]

theorem nullTerminated_getElem?_zero (ts : List CStr) :
    (nullTerminated ts)[0]? = some ts.head? := by
  cases ts <;> simp [nullTerminated]

/-! ## Theorems -/

/-- C2 (evaluation at failing inputs): on `"a b c d e"` split at whitespace
`parse` allocates 4 slots and stores 6 cells (five tokens and NULL), and on
the line `"ls\n"` split at `#` it allocates 1 slot and stores 2 cells; in both
the stores run past the allocation. -/
theorem parse_overflows_block :
    parse (some "a b c d e".toList) " \t\n".toList
        = some ⟨4, [some "a".toList, some "b".toList, some "c".toList, some "d".toList,
            some "e".toList, none]⟩ ∧
      ¬ (PtrList.mk 4 [some "a".toList, some "b".toList, some "c".toList, some "d".toList,
            some "e".toList, none]).inBounds ∧
      parse (some "ls\n".toList) "#".toList = some ⟨1, [some "ls\n".toList, none]⟩ ∧
      ¬ (PtrList.mk 1 [some "ls\n".toList, none]).inBounds := by
  decide

/-- C5 (what the code does): when the line is absent, empty or made only of
`#` chars, `getCommands` returns the block holding the NULL cell alone, no
argument list at all, and the loop body's read of `commandList[0][0]` then
goes through the NULL pointer `commandList[0]`. -/
theorem getCommands_separators_only (input : Option CStr)
    (h : ∀ c ∈ input.getD [], c ∈ "#".toList) :
    getCommands input = some [none] ∧ mainBody [none] = none := by
  refine ⟨?_, rfl⟩
  rw [getCommands_eq, maximalRuns_all_delim _ _ h]
  rfl

theorem getCommands_separators_only_witness :
    getCommands (some "#".toList) = some [none] ∧ mainBody [none] = none :=
  getCommands_separators_only (some "#".toList) (by decide)

/-- C6: for every non-empty argument list, `isExitCommand` returns true if and
only if the list has exactly one token and that token is `exit` or `quit`,
compared case-sensitively; `["exit"]` and `["quit"]` are accepted,
`["exit", "now"]`, `["Exit"]` and `["exit", "exit"]` are not. -/
theorem isExitCommand_iff (slots : Nat) (ts : List CStr) (hne : ts ≠ []) :
    (isExitCommand ⟨slots, nullTerminated ts⟩
        = some (decide (ts = ["exit".toList] ∨ ts = ["quit".toList]))) ∧
    isExitCommand ⟨slots, nullTerminated ["exit".toList]⟩ = some true ∧
    isExitCommand ⟨slots, nullTerminated ["quit".toList]⟩ = some true ∧
    isExitCommand ⟨slots, nullTerminated ["exit".toList, "now".toList]⟩ = some false ∧
    isExitCommand ⟨slots, nullTerminated ["Exit".toList]⟩ = some false ∧
    isExitCommand ⟨slots, nullTerminated ["exit".toList, "exit".toList]⟩ = some false := by
  refine ⟨?_, ?_, ?_, ?_, ?_, ?_⟩
  · cases ts with
    | nil => exact absurd rfl hne
    | cons t rest =>
      rw [isExitCommand_eq]
      congr 1
      simp only [decide_eq_decide, List.cons.injEq]
      tauto
  all_goals (rw [isExitCommand_eq]; decide)

theorem isExitCommand_iff_witness :
    (isExitCommand ⟨2, nullTerminated ["quit".toList]⟩
        = some (decide (["quit".toList] = ["exit".toList] ∨ ["quit".toList] = ["quit".toList]))) ∧
    isExitCommand ⟨2, nullTerminated ["exit".toList]⟩ = some true ∧
    isExitCommand ⟨2, nullTerminated ["quit".toList]⟩ = some true ∧
    isExitCommand ⟨2, nullTerminated ["exit".toList, "now".toList]⟩ = some false ∧
    isExitCommand ⟨2, nullTerminated ["Exit".toList]⟩ = some false ∧
    isExitCommand ⟨2, nullTerminated ["exit".toList, "exit".toList]⟩ = some false :=
  isExitCommand_iff 2 ["quit".toList] (by decide)

/-- C7: for every non-empty argument list, `isCDCommand` returns true if and
only if the first token is `cd` or `chdir`, whatever tokens follow it and
however many. -/
theorem isCDCommand_iff (slots : Nat) (t : CStr) (rest : List CStr) :
    isCDCommand ⟨slots, nullTerminated (t :: rest)⟩
      = some (decide (t = "cd".toList ∨ t = "chdir".toList)) :=
  isCDCommand_eq slots t rest

/-- C8: for every command list with at least one argument list, the loop body
falls into exactly one of the four classes Empty, Exit, ChangeDirectory and
External; the class is that of the first argument list alone, whatever the
remaining cells are; and External is chosen exactly when the first argument
list is non-empty, is not a lone `exit` or `quit`, and does not start with
`cd` or `chdir`, as for `exit now`. -/
theorem mainBody_classifies (slots : Nat) (ts : List CStr)
    (rest other : List (Option PtrList)) :
    (mainBody (some ⟨slots, nullTerminated ts⟩ :: rest)).map Step.commandClass
        = some (classify ts) ∧
    (mainBody (some ⟨slots, nullTerminated ts⟩ :: other)).map Step.commandClass
        = (mainBody (some ⟨slots, nullTerminated ts⟩ :: rest)).map Step.commandClass ∧
    ((mainBody (some ⟨slots, nullTerminated ts⟩ :: rest)).map Step.commandClass
        = some CommandClass.External ↔
      ts ≠ [] ∧ ¬ (ts = ["exit".toList] ∨ ts = ["quit".toList]) ∧
        ¬ (ts.head? = some "cd".toList ∨ ts.head? = some "chdir".toList)) ∧
    (mainBody (some ⟨slots, nullTerminated ["exit".toList, "now".toList]⟩ :: rest)).map
        Step.commandClass = some CommandClass.External := by
  refine ⟨mainBody_class slots ts rest, ?_, ?_, ?_⟩
  · rw [mainBody_class, mainBody_class]
  · rw [mainBody_class]
    unfold classify
    by_cases h0 : ts = []
    · rw [if_pos h0]
      exact ⟨fun h => (by cases h), fun h => absurd h0 h.1⟩
    · rw [if_neg h0]
      by_cases h1 : ts = ["exit".toList] ∨ ts = ["quit".toList]
      · rw [if_pos h1]
        exact ⟨fun h => (by cases h), fun h => absurd h1 h.2.1⟩
      · rw [if_neg h1]
        by_cases h2 : ts.head? = some "cd".toList ∨ ts.head? = some "chdir".toList
        · rw [if_pos h2]
          exact ⟨fun h => (by cases h), fun h => absurd h2 h.2.2⟩
        · rw [if_neg h2]
          exact ⟨fun _ => ⟨h0, h1, h2⟩, fun _ => rfl⟩
  · rw [mainBody_class]; decide

/-- C9: for a command list of `n >= 1` argument lists in which every `fork()`
succeeds, the parent's events are exactly the `n` forks, in order and with
nothing between them, then one `waitpid` on the pid the last fork returned,
and the function returns; and the child born from the i-th fork (the process
in which that call returns 0) calls `execvp` on the i-th argument list. -/
theorem executeCommands_forks_then_waits_last (argLists : List PtrList) (pids : List Int)
    (execOk : Bool) (hne : argLists ≠ []) (hlen : pids.length = argLists.length)
    (hpos : ∀ r ∈ pids, 0 < r) (hwf : ∀ a ∈ argLists, a.wellFormed) :
    executeCommands (argLists.map some ++ [none]) pids execOk
        = some (pids.map Event.fork ++ [Event.waitpid pids.getLast?], Outcome.returned) ∧
    ∀ (i : Nat) (hi : i < argLists.length),
      (executeCommands (argLists.map some ++ [none]) (pids.take i ++ [0]) true).map Prod.fst
        = some ((pids.take i).map Event.fork ++
            [Event.fork 0,
              Event.execvp (argLists.get ⟨i, hi⟩).tokens.head? (argLists.get ⟨i, hi⟩)]) := by
  have hnz : ∀ r ∈ pids, r ≠ 0 := fun r hr => by have := hpos r hr; omega
  have hpne : pids ≠ [] := by
    intro h; rw [h] at hlen
    exact hne (List.length_eq_zero.mp hlen.symm)
  constructor
  · have h := executeLoop_forks (argLists.map some ++ [none]) execOk pids 0 none [] [] hnz
      (fun j hj => ⟨_, by rw [Nat.zero_add]; exact cells_getElem?_lt argLists _ j (by omega)⟩)
    rw [List.append_nil] at h
    rw [executeCommands, h, foldl_some_eq_getLast? pids none hpne]
    rw [executeLoop_end]
    · simp
    · simp [hlen]
  · intro i hi
    have hti : (pids.take i).length = i := by rw [List.length_take]; omega
    have h := executeLoop_forks (argLists.map some ++ [none]) true (pids.take i) 0 none [] [0]
      (fun r hr => hnz r (List.mem_of_mem_take hr))
      (fun j hj => ⟨_, by
        rw [Nat.zero_add]; exact cells_getElem?_lt argLists _ j (by omega)⟩)
    rw [executeCommands, h, hti, Nat.zero_add]
    have hw := hwf _ (List.get_mem argLists i hi)
    unfold PtrList.wellFormed at hw
    have hc : (argLists.get ⟨i, hi⟩).cells[0]? = some (argLists.get ⟨i, hi⟩).tokens.head? := by
      rw [hw, nullTerminated_getElem?_zero]
    simp only [executeLoop, cells_getElem?_lt argLists _ i hi, if_true, hc]
    cases (argLists.get ⟨i, hi⟩).tokens.head? <;> simp

theorem executeCommands_forks_then_waits_last_witness :
    (∀ r ∈ [(5 : Int), 7], 0 < r) ∧
    (∀ a ∈ [PtrList.mk 1 [some "ls".toList, none], PtrList.mk 2 [some "pwd".toList, none]],
      a.wellFormed) ∧
    executeCommands
        ([PtrList.mk 1 [some "ls".toList, none], PtrList.mk 2 [some "pwd".toList, none]].map some
          ++ [none]) [5, 7] false
      = some ([(5 : Int), 7].map Event.fork ++ [Event.waitpid [(5 : Int), 7].getLast?],
          Outcome.returned) :=
  ⟨by decide, by decide,
    (executeCommands_forks_then_waits_last
      [PtrList.mk 1 [some "ls".toList, none], PtrList.mk 2 [some "pwd".toList, none]]
      [5, 7] false (by decide) (by decide) (by decide) (by decide)).1⟩

/-- C10: in the child created for an argument list whose program name is `p`
(the process in which the `fork()` for that list returns 0), when `execvp`
fails the child writes exactly the line `purvis: p: command not found` to
standard error and calls `exit(1)`: these are its last events, whatever
argument lists follow and whatever further calls of `fork()` would return. -/
theorem executeCommands_child_exec_failure (before : List PtrList) (slots : Nat) (p : CStr)
    (args : List CStr) (after : List (Option PtrList)) (pids more : List Int)
    (hlen : pids.length = before.length) (hnz : ∀ r ∈ pids, r ≠ 0) :
    executeCommands (before.map some ++ some ⟨slots, nullTerminated (p :: args)⟩ :: after)
        (pids ++ 0 :: more) false
      = some (pids.map Event.fork ++
          [Event.fork 0, Event.execvp (some p) ⟨slots, nullTerminated (p :: args)⟩,
            Event.stderr ("purvis: ".toList ++ p ++ ": command not found\n".toList),
            Event.exit 1],
          Outcome.exited 1) := by
  have h := executeLoop_forks
    (before.map some ++ some ⟨slots, nullTerminated (p :: args)⟩ :: after) false pids 0 none []
    (0 :: more) hnz
    (fun j hj => ⟨_, by rw [Nat.zero_add]; exact cells_getElem?_lt before _ j (by omega)⟩)
  have hcell : (before.map some ++ some (PtrList.mk slots (nullTerminated (p :: args))) :: after)[
      pids.length]? = some (some ⟨slots, nullTerminated (p :: args)⟩) := by
    rw [hlen, List.getElem?_append_right (by simp)]; simp
  rw [executeCommands, h, Nat.zero_add]
  simp only [executeLoop, hcell, if_true, nullTerminated_getElem?_zero, List.head?_cons]
  simp

theorem executeCommands_child_exec_failure_witness :
    executeCommands
        ([PtrList.mk 1 [some "ls".toList, none]].map some
          ++ some ⟨3, nullTerminated ["nosuch".toList, "-x".toList]⟩ :: [some ⟨1, [none]⟩, none])
        ([7] ++ 0 :: [9, 11]) false
      = some ([(7 : Int)].map Event.fork ++
          [Event.fork 0,
            Event.execvp (some "nosuch".toList) ⟨3, nullTerminated ["nosuch".toList, "-x".toList]⟩,
            Event.stderr ("purvis: ".toList ++ "nosuch".toList ++ ": command not found\n".toList),
            Event.exit 1],
          Outcome.exited 1) :=
  executeCommands_child_exec_failure [PtrList.mk 1 [some "ls".toList, none]] 3 "nosuch".toList
    ["-x".toList] [some ⟨1, [none]⟩, none] [7] [9, 11] (by decide) (by decide)

/-! ## Further lemmas on the tokenizer -/

theorem tokens_nullTerminated (slots : Nat) (ts : List CStr) :
    (PtrList.mk slots (nullTerminated ts)).tokens = ts := by
  simp [PtrList.tokens, nullTerminated, List.takeWhile_append, List.filterMap_map]

/-- On every string, empty or not, `parse` returns a block whose tokens are
the maximal runs. -/
theorem parse_tokens (s : CStr) (D : CStr) :
    ∃ p, parse (some s) D = some p ∧ p.cells = nullTerminated (maximalRuns s D) ∧
      p.tokens = maximalRuns s D := by
  by_cases hs : s = []
  · subst hs
    exact ⟨⟨1, [none]⟩, by simp [parse], by simp [maximalRuns_nil, nullTerminated],
      by simp [maximalRuns_nil, PtrList.tokens]⟩
  · exact ⟨_, parse_eq s D hs, rfl, tokens_nullTerminated _ _⟩

theorem alternating_length : ∀ n : Nat, (alternating n).length = n
  | 0 => rfl
  | 1 => rfl
  | n + 2 => by
    have ih := alternating_length n
    simp only [alternating, List.length_append, ih]
    have : "a ".toList.length = 2 := by decide
    omega

theorem alternating_ne_nil (n : Nat) (hn : 1 ≤ n) : alternating n ≠ [] := by
  intro h
  have := alternating_length n
  rw [h] at this
  simp at this
  omega

theorem maximalRuns_alternating : ∀ n : Nat,
    (maximalRuns (alternating n) " ".toList).length = (n + 1) / 2
  | 0 => by simp [alternating, maximalRuns_nil]
  | 1 => by decide
  | n + 2 => by
    have ih := maximalRuns_alternating n
    have hcons : alternating (n + 2) = 'a' :: ' ' :: alternating n := rfl
    have ha : 'a' ∉ " ".toList := by decide
    rw [hcons, maximalRuns_cons_tok _ _ _ ha]
    have h0 : strcspn (' ' :: alternating n) " ".toList = 0 := by simp [strcspn]
    rw [h0]
    simp only [List.take_zero, List.length_cons, Nat.zero_add, List.drop_succ_cons, List.drop_zero,
      ih]
    omega

theorem take_strcspn_no_delim (D : CStr) :
    ∀ (s : CStr), ∀ c ∈ s.take (strcspn s D), c ∉ D := by
  intro s
  induction s with
  | nil => intro c hc; simp [strcspn] at hc
  | cons x s ih =>
    intro c hc
    by_cases hx : x ∈ D
    · simp [strcspn, hx] at hc
    · simp only [strcspn, hx, if_false, List.take_succ_cons, List.mem_cons] at hc
      rcases hc with rfl | hc
      · exact hx
      · exact ih c hc

/-- The chars of a maximal run are chars of the string and none is a
delimiter. -/
theorem mem_maximalRuns_chars (D : CStr) :
    ∀ (n : Nat) (s : CStr), s.length ≤ n → ∀ t ∈ maximalRuns s D,
      ∀ c ∈ t, c ∉ D ∧ c ∈ s := by
  intro n
  induction n with
  | zero =>
    intro s hs t ht
    have : s = [] := List.length_eq_zero.mp (by omega)
    subst this
    rw [maximalRuns_nil] at ht
    simp at ht
  | succ n ih =>
    intro s hs t ht c hc
    cases s with
    | nil => rw [maximalRuns_nil] at ht; simp at ht
    | cons x s =>
      have hs' : s.length ≤ n := by simpa using hs
      by_cases hx : x ∈ D
      · rw [maximalRuns_cons_delim D x s hx] at ht
        obtain ⟨h1, h2⟩ := ih s hs' t ht c hc
        exact ⟨h1, List.mem_cons_of_mem _ h2⟩
      · rw [maximalRuns_cons_tok D x s hx, List.mem_cons] at ht
        rcases ht with rfl | ht
        · rw [List.mem_cons] at hc
          rcases hc with rfl | hc
          · exact ⟨hx, List.mem_cons_self _ _⟩
          · exact ⟨take_strcspn_no_delim D s c hc,
              List.mem_cons_of_mem _ (List.mem_of_mem_take hc)⟩
        · have hd : (s.drop (strcspn s D + 1)).length ≤ n := by
            rw [List.length_drop]; omega
          obtain ⟨h1, h2⟩ := ih _ hd t ht c hc
          exact ⟨h1, List.mem_cons_of_mem _ (List.mem_of_mem_drop h2)⟩

/-! ## Further lemmas on the loop body and the executor -/

theorem cwdAfter_append (sys : Option CStr → CStr → CStr) (cwd : CStr)
    (trace more : List Event) :
    cwdAfter sys cwd (trace ++ more) = cwdAfter sys (cwdAfter sys cwd trace) more := by
  simp [cwdAfter, List.foldl_append]

/-- No event of `executeCommands` touches the working directory. -/
theorem cwdAfter_executeLoop (sys : Option CStr → CStr → CStr) (cwd : CStr)
    (commandList : List (Option PtrList)) (execOk : Bool) :
    ∀ (forkRets : List Int) (i : Nat) (pid : Option Int) (trace : List Event)
      (res : List Event × Outcome),
      executeLoop commandList execOk forkRets i pid trace = some res →
      cwdAfter sys cwd res.1 = cwdAfter sys cwd trace := by
  intro forkRets
  induction forkRets with
  | nil =>
    intro i pid trace res h
    rcases hc : commandList[i]? with _ | (_ | a) <;> simp only [executeLoop, hc] at h
    · cases h
    · injection h with h; subst h
      rw [cwdAfter_append]; rfl
    · cases h
  | cons ret forkRets ih =>
    intro i pid trace res h
    rcases hc : commandList[i]? with _ | (_ | a) <;> simp only [executeLoop, hc] at h
    · cases h
    · injection h with h; subst h
      rw [cwdAfter_append]; rfl
    · by_cases hr : ret = 0
      · simp only [hr, if_true] at h
        rcases ha : a.cells[0]? with _ | (_ | prog) <;> simp only [ha] at h
        · cases h
        · injection h with h; subst h
          rw [cwdAfter_append]; rfl
        · cases execOk
          · simp only [Bool.false_eq_true, if_false] at h
            injection h with h; subst h
            rw [cwdAfter_append]; rfl
          · simp only [if_true] at h
            injection h with h; subst h
            rw [cwdAfter_append]; rfl
      · simp only [hr, if_false] at h
        rw [ih _ _ _ _ h, cwdAfter_append]; rfl

/-- The parent's run of `executeCommands` when no call of `fork()` returns 0
in it: one `fork` per argument list, then `waitpid` on the value of the last
one. -/
theorem executeCommands_parent (argLists : List PtrList) (pids : List Int) (execOk : Bool)
    (hlen : pids.length = argLists.length) (hnz : ∀ r ∈ pids, r ≠ 0) :
    executeCommands (argLists.map some ++ [none]) pids execOk
      = some (pids.map Event.fork ++ [Event.waitpid pids.getLast?], Outcome.returned) := by
  have h := executeLoop_forks (argLists.map some ++ [none]) execOk pids 0 none [] [] hnz
    (fun j hj => ⟨_, by rw [Nat.zero_add]; exact cells_getElem?_lt argLists _ j (by omega)⟩)
  rw [List.append_nil] at h
  have hlast : pids.foldl (fun _ r => some r) none = pids.getLast? := by
    cases pids with
    | nil => rfl
    | cons r pids => exact foldl_some_eq_getLast? _ none (List.cons_ne_nil _ _)
  rw [executeCommands, h, hlast, executeLoop_end]
  · simp
  · simp [hlen]

theorem forkCount_forks (pids : List Int) (target : Option Int) :
    forkCount (pids.map Event.fork ++ [Event.waitpid target]) = pids.length := by
  induction pids with
  | nil => rfl
  | cons r pids ih =>
    simp only [forkCount, List.map_cons, List.cons_append, List.countP_cons_of_pos,
      List.length_cons] at ih ⊢
    rw [ih]

theorem mainBody_chdir_path (slots : Nat) (ts : List CStr) (rest : List (Option PtrList))
    (path : Option CStr)
    (h : mainBody (some ⟨slots, nullTerminated ts⟩ :: rest) = some (Step.chdir path)) :
    path = ts[1]? := by
  cases ts with
  | nil => rw [mainBody_nil] at h; cases h
  | cons t tl =>
    rw [mainBody_cons] at h
    have hidx : (t :: tl)[1]? = tl.head? := by cases tl <;> simp
    rw [hidx]
    split_ifs at h <;> cases h
    rfl

theorem mainBody_some (slots : Nat) (ts : List CStr) (rest : List (Option PtrList)) :
    ∃ step, mainBody (some ⟨slots, nullTerminated ts⟩ :: rest) = some step ∧
      step.commandClass = classify ts := by
  have h := mainBody_class slots ts rest
  cases hm : mainBody (some ⟨slots, nullTerminated ts⟩ :: rest) with
  | none => rw [hm] at h; cases h
  | some step =>
    rw [hm] at h
    exact ⟨step, rfl, by simpa using h⟩

/-! ## Lemmas on rejoining the tokens -/

theorem rdropWhile_cons_eq (p : Char → Bool) (c : Char) (s : CStr) :
    (c :: s).rdropWhile p
      = if s.rdropWhile p = [] then (if p c then [] else [c]) else c :: s.rdropWhile p := by
  unfold List.rdropWhile
  rw [List.reverse_cons, List.dropWhile_append]
  by_cases h : List.dropWhile p s.reverse = []
  · simp [h, List.dropWhile_cons]
    split <;> simp
  · simp [h]

theorem rdropWhile_cons_tok (D : CStr) (c : Char) (s : CStr) (hc : c ∉ D) :
    (c :: s).rdropWhile (fun c => decide (c ∈ D))
      = c :: s.rdropWhile (fun c => decide (c ∈ D)) := by
  rw [rdropWhile_cons_eq]
  split
  · rename_i h; simp [hc, h]
  · rfl

theorem rdropWhile_cons_delim (D : CStr) (c : Char) (s : CStr) (hc : c ∈ D) :
    (c :: s).rdropWhile (fun c => decide (c ∈ D))
      = if s.rdropWhile (fun c => decide (c ∈ D)) = [] then []
        else c :: s.rdropWhile (fun c => decide (c ∈ D)) := by
  rw [rdropWhile_cons_eq]
  simp [hc]

theorem maximalRuns_eq_nil_iff (D : CStr) (s : CStr) :
    maximalRuns s D = [] ↔ ∀ c ∈ s, c ∈ D := by
  induction s with
  | nil => simp [maximalRuns_nil]
  | cons x s ih =>
    by_cases hx : x ∈ D
    · rw [maximalRuns_cons_delim D x s hx, ih]
      simp [hx]
    · rw [maximalRuns_cons_tok D x s hx]
      simp [hx]

theorem rdropWhile_eq_nil_iff_runs (D : CStr) (s : CStr) :
    s.rdropWhile (fun c => decide (c ∈ D)) = [] ↔ maximalRuns s D = [] := by
  rw [List.rdropWhile_eq_nil_iff, maximalRuns_eq_nil_iff]
  simp

theorem intercalate_cons_cons (d : Char) (t t2 : CStr) (ts : List CStr) :
    List.intercalate [d] (t :: t2 :: ts) = t ++ d :: List.intercalate [d] (t2 :: ts) := by
  simp [List.intercalate]

theorem intercalate_cons_head (d : Char) (x : Char) (h : CStr) (tl : List CStr) :
    List.intercalate [d] ((x :: h) :: tl) = x :: List.intercalate [d] (h :: tl) := by
  cases tl <;> simp [List.intercalate]

/-- The rejoined runs of a string that starts with a non-delimiter char, from
those of its tail. -/
theorem intercalate_runs_cons_tok (d : Char) (D : CStr) (x : Char) (s : CStr) (hx : x ∉ D) :
    List.intercalate [d] (maximalRuns (x :: s) D)
      = x :: (if startsWithDelim D s = true ∧ maximalRuns s D ≠ []
          then d :: List.intercalate [d] (maximalRuns s D)
          else List.intercalate [d] (maximalRuns s D)) := by
  cases s with
  | nil =>
    rw [maximalRuns_cons_tok D x [] hx]
    simp [strcspn, maximalRuns_nil, startsWithDelim, List.intercalate]
  | cons y s =>
    by_cases hy : y ∈ D
    · have h0 : strcspn (y :: s) D = 0 := by simp [strcspn, hy]
      rw [maximalRuns_cons_tok D x _ hx, h0, maximalRuns_cons_delim D y s hy]
      simp only [List.take_zero, Nat.zero_add, List.drop_succ_cons, List.drop_zero,
        startsWithDelim, hy, decide_True, true_and]
      cases hr : maximalRuns s D with
      | nil => simp [List.intercalate]
      | cons h tl =>
        rw [intercalate_cons_cons]
        simp
    · have h1 : strcspn (y :: s) D = strcspn s D + 1 := by simp [strcspn, hy]
      rw [maximalRuns_cons_tok D x _ hx, h1, maximalRuns_cons_tok D y s hy]
      simp only [List.take_succ_cons, List.drop_succ_cons, startsWithDelim, hy, decide_False,
        Bool.false_eq_true, false_and, if_false]
      rw [intercalate_cons_head]

/-- Collapsing the delimiter runs of the right-trimmed string gives the
rejoined runs, up to one leading `d` when the string starts with a delimiter
that is not yet part of a replaced run. -/
theorem collapseDelims_rdropWhile (d : Char) (D : CStr) :
    ∀ s : CStr,
      collapseDelims d D true (s.rdropWhile (fun c => decide (c ∈ D)))
          = List.intercalate [d] (maximalRuns s D) ∧
      collapseDelims d D false (s.rdropWhile (fun c => decide (c ∈ D)))
          = (if startsWithDelim D s = true ∧ maximalRuns s D ≠ []
              then d :: List.intercalate [d] (maximalRuns s D)
              else List.intercalate [d] (maximalRuns s D)) := by
  intro s
  induction s with
  | nil => simp [collapseDelims, maximalRuns_nil, startsWithDelim, List.intercalate]
  | cons x s ih =>
    by_cases hx : x ∈ D
    · rw [rdropWhile_cons_delim D x s hx, maximalRuns_cons_delim D x s hx]
      by_cases hR : s.rdropWhile (fun c => decide (c ∈ D)) = []
      · have hruns := (rdropWhile_eq_nil_iff_runs D s).mp hR
        simp [hR, hruns, collapseDelims, List.intercalate]
      · have hruns : maximalRuns s D ≠ [] := fun h => hR ((rdropWhile_eq_nil_iff_runs D s).mpr h)
        rw [if_neg hR]
        simp only [collapseDelims, hx, if_true, ih.1, startsWithDelim, decide_True, true_and,
          hruns, ne_eq, not_false_eq_true, Bool.false_eq_true, if_false]
    · rw [rdropWhile_cons_tok D x s hx, intercalate_runs_cons_tok d D x s hx]
      have hne : maximalRuns (x :: s) D ≠ [] := by
        rw [maximalRuns_cons_tok D x s hx]; exact List.cons_ne_nil _ _
      simp only [collapseDelims, hx, if_false, ih.2, startsWithDelim, decide_False,
        Bool.false_eq_true, false_and]
      exact ⟨trivial, trivial⟩

theorem maximalRuns_dropWhile (D : CStr) (s : CStr) :
    maximalRuns (s.dropWhile (fun c => decide (c ∈ D))) D = maximalRuns s D := by
  induction s with
  | nil => rfl
  | cons x s ih =>
    by_cases hx : x ∈ D
    · rw [List.dropWhile_cons_of_pos (by simpa using hx), ih, maximalRuns_cons_delim D x s hx]
    · rw [List.dropWhile_cons_of_neg (by simpa using hx)]

theorem startsWithDelim_dropWhile (D : CStr) (s : CStr) :
    startsWithDelim D (s.dropWhile (fun c => decide (c ∈ D))) = false := by
  induction s with
  | nil => rfl
  | cons x s ih =>
    by_cases hx : x ∈ D
    · rw [List.dropWhile_cons_of_pos (by simpa using hx), ih]
    · rw [List.dropWhile_cons_of_neg (by simpa using hx)]
      simp [startsWithDelim, hx]

/-- The rejoined runs are the string without leading and trailing delimiters
and with every delimiter run replaced by `d`. -/
theorem intercalate_runs_eq_collapse (d : Char) (D : CStr) (s : CStr) :
    List.intercalate [d] (maximalRuns s D) = collapseDelims d D false (trimDelims D s) := by
  unfold trimDelims
  rw [(collapseDelims_rdropWhile d D _).2, startsWithDelim_dropWhile, maximalRuns_dropWhile]
  simp

theorem maximalRuns_append_delim (D : CStr) (tok : CStr) (e : Char) (r : CStr)
    (hne : tok ≠ []) (htok : ∀ c ∈ tok, c ∉ D) (he : e ∈ D) :
    maximalRuns (tok ++ e :: r) D = tok :: maximalRuns r D := by
  unfold maximalRuns
  rw [List.splitOnP_first (fun c => decide (c ∈ D)) tok
    (fun x hx => by simpa using htok x hx) e (by simpa using he) r]
  simp [hne]

/-- Tokenizing the rejoined tokens gives the tokens back. -/
theorem maximalRuns_intercalate (d : Char) (D : CStr) (hd : d ∈ D) :
    ∀ ts : List CStr, (∀ t ∈ ts, t ≠ [] ∧ ∀ c ∈ t, c ∉ D) →
      maximalRuns (List.intercalate [d] ts) D = ts := by
  intro ts
  induction ts with
  | nil => intro _; simp [List.intercalate, maximalRuns_nil]
  | cons t ts ih =>
    intro h
    obtain ⟨hne, htok⟩ := h t (List.mem_cons_self _ _)
    cases ts with
    | nil =>
      have : List.intercalate [d] [t] = t := by simp [List.intercalate]
      rw [this]
      exact maximalRuns_no_delim t D hne htok
    | cons t2 ts =>
      rw [intercalate_cons_cons, maximalRuns_append_delim D t d _ hne htok hd,
        ih (fun x hx => h x (List.mem_cons_of_mem _ hx))]

theorem maximalRuns_rejoin (d : Char) (D : CStr) (hd : d ∈ D) (s : CStr) :
    maximalRuns (List.intercalate [d] (maximalRuns s D)) D = maximalRuns s D :=
  maximalRuns_intercalate d D hd _ (fun t ht =>
    ⟨mem_maximalRuns_ne_nil s D t ht,
      fun c hc => (mem_maximalRuns_chars D s.length s (le_refl _) t ht c hc).1⟩)

/-! ## Theorems, continued -/

/-- C11 (what the code does): when `readInput` delivers no line or an empty
line, the pass of the shell loop does not behave as for an Exit request: the
command list holds the NULL cell alone and the read of `commandList[0][0]`
goes through the NULL pointer `commandList[0]`, whereas the line `exit`
leaves the loop with `main` returning 0. -/
theorem shellIteration_end_of_input (forkRets : List Int) (execOk : Bool) :
    getCommands none = some [none] ∧ getCommands (some []) = some [none] ∧
    shellIteration none forkRets execOk = none ∧
    shellIteration (some []) forkRets execOk = none ∧
    shellIteration (some "exit\n".toList) forkRets execOk = some ([], Outcome.exited 0) := by
  refine ⟨rfl, rfl, rfl, rfl, rfl⟩

/-- C15: for every delimiter set, `parse` of the NULL pointer and `parse` of
the empty string return a block of one slot whose only cell is the NULL end
marker: an argument list with zero tokens, stored inside its allocation. -/
theorem parse_absent_or_empty (D : CStr) :
    parse none D = some ⟨1, [none]⟩ ∧ parse (some []) D = some ⟨1, [none]⟩ ∧
      (PtrList.mk 1 [none]).tokens = [] ∧ (PtrList.mk 1 [none]).inBounds := by
  refine ⟨rfl, rfl, rfl, ?_⟩
  decide

/-- C18: for every string `s` of length `n` and every delimiter set, `parse`
produces at most `ceil(n/2)` tokens; the strings alternating one
non-delimiter char with one delimiter attain the bound at every length
(`"a b c d e"`: 5 tokens for length 9); so for every length `n >= 1` there is
an input whose tokens and end marker need more than the `floor(n/2)` slots
`parse` allocates. -/
theorem parse_token_count_bound (s : CStr) (D : CStr) (n : Nat) (hn : 1 ≤ n) :
    (∃ p, parse (some s) D = some p ∧ p.tokens.length ≤ (s.length + 1) / 2) ∧
    (alternating n).length = n ∧
    (∃ p, parse (some (alternating n)) " ".toList = some p ∧
      p.tokens.length = (n + 1) / 2 ∧ p.slots = n / 2 ∧
      p.slots < p.tokens.length + 1 ∧ ¬ p.inBounds) ∧
    (parse (some "a b c d e".toList) " ".toList).map (fun p => p.tokens.length) = some 5 := by
  refine ⟨?_, alternating_length n, ?_, by decide⟩
  · obtain ⟨p, hp, _, ht⟩ := parse_tokens s D
    refine ⟨p, hp, ?_⟩
    rw [ht]
    have := maximalRuns_length D s.length s (le_refl _)
    omega
  · refine ⟨_, parse_eq _ _ (alternating_ne_nil n hn), ?_, ?_, ?_, ?_⟩
    · rw [tokens_nullTerminated, maximalRuns_alternating]
    · simp only [alternating_length]
    · rw [tokens_nullTerminated, maximalRuns_alternating]
      simp only [alternating_length]
      omega
    · simp only [PtrList.inBounds, nullTerminated, List.length_append, List.length_map,
        List.length_singleton, maximalRuns_alternating, alternating_length]
      omega

theorem parse_token_count_bound_witness :
    (∃ p, parse (some "a b c d e".toList) " ".toList = some p ∧
      p.tokens.length ≤ ("a b c d e".toList.length + 1) / 2) ∧
    (alternating 9).length = 9 ∧
    (∃ p, parse (some (alternating 9)) " ".toList = some p ∧
      p.tokens.length = (9 + 1) / 2 ∧ p.slots = 9 / 2 ∧
      p.slots < p.tokens.length + 1 ∧ ¬ p.inBounds) ∧
    (parse (some "a b c d e".toList) " ".toList).map (fun p => p.tokens.length) = some 5 :=
  parse_token_count_bound "a b c d e".toList " ".toList 9 (by decide)

/-- C12: with the working directory as explicit state of the shell process,
a pass of the loop body calls `chdir` if and only if the first argument list
is classified ChangeDirectory; the path it passes is then the second token of
that list, NULL when there is none, whatever tokens come after it (`cd /tmp x`
asks for `/tmp`, `cd` alone passes NULL); and in a pass of any other class
(Empty, Exit, External) the working directory of the process after the pass
is the one before it. -/
theorem chdir_only_on_change_directory (slots : Nat) (ts : List CStr)
    (rest : List (Option PtrList)) (forkRets : List Int) (execOk : Bool)
    (sys : Option CStr → CStr → CStr) (cwd : CStr) :
    ((∃ path, mainBody (some ⟨slots, nullTerminated ts⟩ :: rest) = some (Step.chdir path)) ↔
      classify ts = CommandClass.ChangeDirectory) ∧
    (classify ts = CommandClass.ChangeDirectory →
      mainBody (some ⟨slots, nullTerminated ts⟩ :: rest) = some (Step.chdir ts[1]?) ∧
      mainIteration (some ⟨slots, nullTerminated ts⟩ :: rest) forkRets execOk
        = some ([Event.chdir ts[1]?], Outcome.returned) ∧
      cwdAfter sys cwd [Event.chdir ts[1]?] = sys ts[1]? cwd) ∧
    (classify ts ≠ CommandClass.ChangeDirectory →
      ∀ events outcome,
        mainIteration (some ⟨slots, nullTerminated ts⟩ :: rest) forkRets execOk
          = some (events, outcome) →
        cwdAfter sys cwd events = cwd) ∧
    shellIteration (some "cd /tmp x\n".toList) forkRets execOk
      = some ([Event.chdir (some "/tmp".toList)], Outcome.returned) ∧
    shellIteration (some "cd\n".toList) forkRets execOk
      = some ([Event.chdir none], Outcome.returned) := by
  obtain ⟨step, hstep, hclass⟩ := mainBody_some slots ts rest
  have hcd : classify ts = CommandClass.ChangeDirectory →
      mainBody (some ⟨slots, nullTerminated ts⟩ :: rest) = some (Step.chdir ts[1]?) := by
    intro hc
    rw [hc] at hclass
    cases step with
    | chdir path =>
      rw [hstep, mainBody_chdir_path slots ts rest path hstep]
    | nothing => cases hclass
    | exit => cases hclass
    | execute cl => cases hclass
  refine ⟨⟨?_, fun hc => ⟨_, hcd hc⟩⟩, ?_, ?_, rfl, rfl⟩
  · rintro ⟨path, hp⟩
    rw [hp] at hstep
    injection hstep with hstep
    rw [← hclass, ← hstep]; rfl
  · intro hc
    refine ⟨hcd hc, ?_, rfl⟩
    simp only [mainIteration, hcd hc]
  · intro hc events outcome hrun
    rw [← hclass] at hc
    simp only [mainIteration, hstep] at hrun
    cases step with
    | chdir path => exact absurd rfl hc
    | nothing =>
      injection hrun with hrun; injection hrun with h1 h2
      rw [← h1]; rfl
    | exit =>
      injection hrun with hrun; injection hrun with h1 h2
      rw [← h1]; rfl
    | execute cl =>
      simp only [executeCommands] at hrun
      exact cwdAfter_executeLoop sys cwd cl execOk forkRets 0 none [] _ hrun

/-- C16 (evaluation against the claim): with the argument lists `["ls"]` and
`["pwd"]`, the first `fork()` returning 5 and the second failing with -1, the
parent's events are the two forks and `waitpid(-1)`: nothing is written to
standard error, and the wait names the failed call's return value, not the
child 5 that was created. -/
theorem fork_failure_unreported_and_waited :
    executeCommands
        [some ⟨1, [some "ls".toList, none]⟩, some ⟨2, [some "pwd".toList, none]⟩, none]
        [5, -1] false
      = some ([Event.fork 5, Event.fork (-1), Event.waitpid (some (-1))], Outcome.returned) ∧
    (∀ text, Event.stderr text ∉
      [Event.fork 5, Event.fork (-1), Event.waitpid (some (-1))]) ∧
    Event.waitpid (some 5) ∉ [Event.fork 5, Event.fork (-1), Event.waitpid (some (-1))] := by
  refine ⟨by decide, ?_, by decide⟩
  intro text h
  simp at h

/-- C16 (amended): when calls of `fork()` fail (return a negative value) in
`executeCommands`, the parent writes no report and creates no child for
those argument lists; it still calls `fork()` once per argument list, in
order, then `waitpid` once, and returns to the shell loop; and when the last
call of `fork()` succeeded, the wait names the child it created. -/
theorem executeCommands_fork_failure (argLists : List PtrList) (pids : List Int)
    (execOk : Bool) (hlen : pids.length = argLists.length) (hnz : ∀ r ∈ pids, r ≠ 0) :
    ∃ target,
      executeCommands (argLists.map some ++ [none]) pids execOk
        = some (pids.map Event.fork ++ [Event.waitpid target], Outcome.returned) ∧
      (∀ r, pids.getLast? = some r → 0 < r → target = some r) :=
  ⟨pids.getLast?, executeCommands_parent argLists pids execOk hlen hnz, fun _ h _ => h⟩

theorem executeCommands_fork_failure_witness :
    ∃ target,
      executeCommands
          ([PtrList.mk 1 [some "ls".toList, none], PtrList.mk 2 [some "pwd".toList, none]].map
            some ++ [none]) [-1, 7] false
        = some ([(-1 : Int), 7].map Event.fork ++ [Event.waitpid target], Outcome.returned) ∧
      (∀ r, [(-1 : Int), 7].getLast? = some r → 0 < r → target = some r) :=
  executeCommands_fork_failure
    [PtrList.mk 1 [some "ls".toList, none], PtrList.mk 2 [some "pwd".toList, none]]
    [-1, 7] false (by decide) (by decide)

/-- C17: a pass of the shell loop calls `fork()` only when the first argument
list is External, and then once per argument list of the whole command list;
when the first argument list is Empty, Exit or ChangeDirectory no child is
created, whatever the later argument lists are (the lines ` # ls` and
`cd /tmp # ls` run nothing); and a built-in name in a later position
(`ls # exit`) is handed to `execvp` in a child like any program. -/
theorem spawns_only_when_first_external (slots : Nat) (ts : List CStr)
    (more : List PtrList) (rest : List (Option PtrList)) (pids forkRets : List Int)
    (execOk : Bool) (hlen : pids.length = more.length + 1) (hpos : ∀ r ∈ pids, 0 < r) :
    (classify ts ≠ CommandClass.External →
      ∃ events outcome,
        mainIteration (some ⟨slots, nullTerminated ts⟩ :: rest) forkRets execOk
          = some (events, outcome) ∧ forkCount events = 0) ∧
    (classify ts = CommandClass.External →
      mainIteration ((PtrList.mk slots (nullTerminated ts) :: more).map some ++ [none])
          pids execOk
        = some (pids.map Event.fork ++ [Event.waitpid pids.getLast?], Outcome.returned) ∧
      forkCount (pids.map Event.fork ++ [Event.waitpid pids.getLast?]) = more.length + 1) ∧
    shellIteration (some " # ls\n".toList) forkRets execOk = some ([], Outcome.returned) ∧
    shellIteration (some "cd /tmp # ls\n".toList) forkRets execOk
      = some ([Event.chdir (some "/tmp".toList)], Outcome.returned) ∧
    shellIteration (some "ls # exit\n".toList) [5, 7] execOk
      = some ([Event.fork 5, Event.fork 7, Event.waitpid (some 7)], Outcome.returned) ∧
    shellIteration (some "ls # exit\n".toList) [5, 0] true
      = some ([Event.fork 5, Event.fork 0,
          Event.execvp (some "exit".toList) ⟨3, [some "exit".toList, none]⟩],
          Outcome.replaced) := by
  refine ⟨?_, ?_, rfl, rfl, ?_, by decide⟩
  · intro hc
    obtain ⟨step, hstep, hclass⟩ := mainBody_some slots ts rest
    rw [← hclass] at hc
    simp only [mainIteration, hstep]
    cases step with
    | execute cl => exact absurd rfl hc
    | nothing => exact ⟨_, _, rfl, rfl⟩
    | exit => exact ⟨_, _, rfl, rfl⟩
    | chdir path => exact ⟨_, _, rfl, rfl⟩
  · intro hc
    have hcells : (PtrList.mk slots (nullTerminated ts) :: more).map some ++ [none]
        = some ⟨slots, nullTerminated ts⟩ :: (more.map some ++ [none]) := rfl
    obtain ⟨step, hstep, hclass⟩ := mainBody_some slots ts (more.map some ++ [none])
    rw [hc] at hclass
    have hexec : mainBody (some ⟨slots, nullTerminated ts⟩ :: (more.map some ++ [none]))
        = some (Step.execute (some ⟨slots, nullTerminated ts⟩ :: (more.map some ++ [none]))) := by
      cases ts with
      | nil => rw [mainBody_nil] at hstep; injection hstep with h; rw [← h] at hclass; cases hclass
      | cons t tl =>
        rw [mainBody_cons] at hstep ⊢
        split_ifs at hstep ⊢ <;> first | rfl | (injection hstep with h; rw [← h] at hclass; cases hclass)
    constructor
    · rw [hcells]
      simp only [mainIteration, hexec]
      rw [← hcells]
      exact executeCommands_parent _ pids execOk (by simp [hlen])
        (fun r hr => by have := hpos r hr; omega)
    · rw [forkCount_forks, hlen]
  · cases execOk <;> decide

theorem spawns_only_when_first_external_witness :
    mainIteration
        ((PtrList.mk 1 (nullTerminated ["ls".toList])
          :: [PtrList.mk 3 (nullTerminated ["exit".toList])]).map some ++ [none])
        [5, 7] false
      = some ([(5 : Int), 7].map Event.fork ++ [Event.waitpid [(5 : Int), 7].getLast?],
          Outcome.returned) ∧
    forkCount ([(5 : Int), 7].map Event.fork ++ [Event.waitpid [(5 : Int), 7].getLast?])
      = [PtrList.mk 3 (nullTerminated ["exit".toList])].length + 1 :=
  (spawns_only_when_first_external 1 ["ls".toList]
    [PtrList.mk 3 (nullTerminated ["exit".toList])] [] [5, 7] [] false
    (by decide) (by decide)).2.1 (by decide)

/-! ## Lemmas on parse and getCommands with the stores checked -/

theorem parseLoop_length_lt (D : CStr) :
    ∀ (fuel : Nat) (cur : Option CStr) (save : CStr) (acc cells : List (Option CStr)),
      parseLoop D fuel cur save acc = some cells → acc.length < cells.length := by
  intro fuel
  induction fuel with
  | zero => intro cur save acc cells h; simp [parseLoop] at h
  | succ fuel ih =>
    intro cur save acc cells h
    cases cur with
    | none =>
      simp only [parseLoop, Option.some.injEq] at h
      rw [← h]; simp
    | some t =>
      simp only [parseLoop] at h
      have := ih _ _ _ _ h
      simp only [List.length_append, List.length_singleton] at this
      omega

/-- The checked loop gives the stores of the unchecked one when they all fit
the block, and nothing otherwise. -/
theorem parseLoopChecked_eq (D : CStr) (m : Nat) :
    ∀ (fuel : Nat) (cur : Option CStr) (save : CStr) (acc : List (Option CStr)),
      parseLoopChecked D m fuel cur save acc
        = (parseLoop D fuel cur save acc).bind
            (fun cells => if cells.length ≤ m then some cells else none) := by
  intro fuel
  induction fuel with
  | zero => intro cur save acc; rfl
  | succ fuel ih =>
    intro cur save acc
    cases cur with
    | none =>
      simp only [parseLoopChecked, parseLoop, Option.some_bind, List.length_append,
        List.length_singleton]
      by_cases h : acc.length < m
      · rw [if_pos h, if_pos (by omega)]
      · rw [if_neg h, if_neg (by omega)]
    | some t =>
      simp only [parseLoopChecked, parseLoop]
      by_cases h : acc.length < m
      · rw [if_pos h, ih]
      · rw [if_neg h]
        cases hr : parseLoop D fuel (strtok none D save).1 (strtok none D save).2
            (acc ++ [some t]) with
        | none => rfl
        | some cells =>
          have := parseLoop_length_lt D _ _ _ _ _ hr
          simp only [List.length_append, List.length_singleton] at this
          simp only [Option.some_bind]
          rw [if_neg (by omega)]

theorem parseChecked_eq_parse_bind (string : Option CStr) (D : CStr) :
    parseChecked string D
      = (parse string D).bind (fun p => if p.inBounds then some p else none) := by
  cases string with
  | none => rfl
  | some s =>
    by_cases hs : s = []
    · subst hs; rfl
    · simp only [parseChecked, parse, hs, if_false, parseLoopChecked_eq]
      cases parseLoop D (s.length + 1) (strtok (some s) D []).1 (strtok (some s) D []).2 [] with
      | none => rfl
      | some cells =>
        simp only [Option.some_bind, Option.map_some', PtrList.inBounds]
        by_cases h : cells.length ≤ s.length / 2
        · rw [if_pos h, if_pos h]; rfl
        · rw [if_neg h, if_neg h]; rfl

/-- What `parse` returns on a string, in closed form: the block of the
maximal runs when they fit with the end marker, nothing otherwise. -/
theorem parseChecked_eq (s : CStr) (D : CStr) :
    parseChecked (some s) D = if storesFit s D then parse (some s) D else none := by
  rw [parseChecked_eq_parse_bind]
  by_cases hs : s = []
  · subst hs
    have hfit : storesFit [] D := Or.inl rfl
    rw [if_pos hfit]
    rfl
  · rw [parse_eq s D hs]
    simp only [Option.some_bind, PtrList.inBounds, nullTerminated, List.length_append,
      List.length_map, List.length_singleton, storesFit, hs, false_or]

theorem storesFit_ne_nil (s : CStr) (D : CStr) (hs : s ≠ []) :
    storesFit s D ↔ (maximalRuns s D).length + 1 ≤ s.length / 2 := by
  simp [storesFit, hs]

theorem fillLoopChecked_nullTerminated (ts : List CStr) (hne : ∀ t ∈ ts, t ≠ []) :
    ∀ (left i : Nat) (acc : List (Option PtrList)), i + left = ts.length →
      fillLoopChecked (nullTerminated ts) left i acc
        = if ∀ t ∈ ts.drop i, storesFit t whitespace
          then some (acc ++ (ts.drop i).map (fun t => some (argListOf t))) else none := by
  intro left
  induction left with
  | zero =>
    intro i acc h
    have : ts.drop i = [] := List.drop_eq_nil_of_le (by omega)
    simp [fillLoopChecked, this]
  | succ left ih =>
    intro i acc h
    have hlt : i < ts.length := by omega
    have hti : ts.get ⟨i, hlt⟩ ≠ [] := hne _ (List.get_mem _ _ _)
    have hp := parseChecked_eq (ts.get ⟨i, hlt⟩) whitespace
    rw [parse_eq _ _ hti] at hp
    unfold whitespace at hp
    simp only [fillLoopChecked, nullTerminated_getElem?_lt ts i hlt, hp]
    rw [List.drop_eq_getElem_cons hlt]
    simp only [List.forall_mem_cons, List.get_eq_getElem, whitespace]
    by_cases hfit : storesFit ts[i] " \t\n".toList
    · simp only [hfit, if_true, true_and]
      rw [ih (i + 1) _ (by omega)]
      simp only [List.map_cons, List.append_assoc, List.singleton_append, argListOf, whitespace]
    · simp only [hfit, if_false, false_and]

/-- What `getCommands` returns, in closed form: defined exactly when the
stores of every call of `parse` fit, and then one block per maximal run of
the line between `#` chars, then the NULL cell. -/
theorem getCommandsChecked_eq (input : Option CStr) :
    getCommandsChecked input
      = if storesFit (input.getD []) "#".toList ∧
            ∀ t ∈ maximalRuns (input.getD []) "#".toList, storesFit t whitespace
        then some ((maximalRuns (input.getD []) "#".toList).map (fun t => some (argListOf t))
          ++ [none])
        else none := by
  have hraw : parseChecked input "#".toList
      = if storesFit (input.getD []) "#".toList then parse input "#".toList else none := by
    cases input with
    | none =>
      have hfit : storesFit [] "#".toList := Or.inl rfl
      simp only [Option.getD_none, hfit, if_true]; rfl
    | some s => exact parseChecked_eq s _
  have hcells : ∃ slots, parse input "#".toList
      = some ⟨slots, nullTerminated (maximalRuns (input.getD []) "#".toList)⟩ := by
    cases input with
    | none => exact ⟨1, by simp [parse, maximalRuns_nil, nullTerminated]⟩
    | some s =>
      by_cases hs : s = []
      · subst hs; exact ⟨1, by simp [parse, maximalRuns_nil, nullTerminated]⟩
      · exact ⟨_, parse_eq s _ hs⟩
  obtain ⟨slots, hp⟩ := hcells
  have hlen : (nullTerminated (maximalRuns (input.getD []) "#".toList)).length
      = (maximalRuns (input.getD []) "#".toList).length + 1 := by
    simp [nullTerminated]
  by_cases hfit : storesFit (input.getD []) "#".toList
  · rw [if_pos hfit, hp] at hraw
    simp only [getCommandsChecked, hraw, hlen]
    rw [countLoop_nullTerminated _ _ 0 (Nat.zero_le _) (by omega)]
    simp only
    rw [fillLoopChecked_nullTerminated _ (fun t ht => mem_maximalRuns_ne_nil _ _ t ht) _ 0 []
      (by omega)]
    simp only [List.drop_zero, hfit, true_and, List.nil_append]
    by_cases hall : ∀ t ∈ maximalRuns (input.getD []) "#".toList, storesFit t whitespace
    · rw [if_pos hall, if_pos hall]
    · rw [if_neg hall, if_neg hall]
  · rw [if_neg hfit] at hraw
    simp only [getCommandsChecked, hraw, hfit, false_and, if_false]

theorem parseChecked_tokens (s : CStr) (D : CStr) :
    (parseChecked (some s) D).map PtrList.tokens
      = if storesFit s D then some (maximalRuns s D) else none := by
  rw [parseChecked_eq]
  obtain ⟨p, hp, _, ht⟩ := parse_tokens s D
  by_cases hfit : storesFit s D
  · rw [if_pos hfit, if_pos hfit, hp, Option.map_some', ht]
  · rw [if_neg hfit, if_neg hfit]; rfl

theorem normalizeChecked_eq (d : Char) (D : CStr) (s : CStr) :
    normalizeChecked d D s
      = if storesFit s D then some (List.intercalate [d] (maximalRuns s D)) else none := by
  unfold normalizeChecked
  rw [parseChecked_eq]
  obtain ⟨p, hp, _, ht⟩ := parse_tokens s D
  by_cases hfit : storesFit s D
  · rw [if_pos hfit, if_pos hfit, hp, Option.map_some', ht]
  · rw [if_neg hfit, if_neg hfit]; rfl

theorem tokens_of_maximalRuns (s D t : CStr) (ht : t ∈ maximalRuns s D) :
    t ≠ [] ∧ ∀ c ∈ t, c ∉ D :=
  ⟨mem_maximalRuns_ne_nil s D t ht,
    fun c hc => (mem_maximalRuns_chars D s.length s (le_refl _) t ht c hc).1⟩

/-! ## Theorems on what parse and getCommands return -/

/-- C1 (what the code does): for a non-empty string `s`, `parse` returns the
block of the maximal runs of `s`, in order, then NULL, only when the runs and
the end marker fit the `strlen(s) / 2` slots it allocates; otherwise a store
falls outside the block and nothing is defined about what it returns.  On
`"a b c d e f"` split at whitespace it allocates 5 slots and stores 7 cells. -/
theorem parseChecked_maximal_runs_iff_fit (s : CStr) (D : CStr) (hs : s ≠ []) :
    parseChecked (some s) D
        = (if (maximalRuns s D).length + 1 ≤ s.length / 2
            then some ⟨s.length / 2, (maximalRuns s D).map some ++ [none]⟩ else none) ∧
    parse (some "a b c d e f".toList) " \t\n".toList
        = some ⟨5, [some "a".toList, some "b".toList, some "c".toList, some "d".toList,
            some "e".toList, some "f".toList, none]⟩ ∧
    parseChecked (some "a b c d e f".toList) " \t\n".toList = none ∧
    parseChecked (some "ab cd   ".toList) " \t\n".toList
        = some ⟨4, [some "ab".toList, some "cd".toList, none]⟩ := by
  refine ⟨?_, by decide, by decide, by decide⟩
  rw [parseChecked_eq, parse_eq s D hs]
  simp only [storesFit, hs, false_or, nullTerminated]

theorem parseChecked_maximal_runs_iff_fit_witness :
    parseChecked (some "a b c d e f".toList) " \t\n".toList
        = (if (maximalRuns "a b c d e f".toList " \t\n".toList).length + 1
              ≤ "a b c d e f".toList.length / 2
            then some ⟨"a b c d e f".toList.length / 2,
              (maximalRuns "a b c d e f".toList " \t\n".toList).map some ++ [none]⟩ else none) :=
  (parseChecked_maximal_runs_iff_fit "a b c d e f".toList " \t\n".toList (by decide)).1

/-- C3 (what the code does): `getCommands` returns a command list only when
the stores of its call of `parse` on the line and of its calls of `parse` on
the `#`-separated pieces all fit their blocks; it is then one argument list
per non-empty piece, in order, the i-th being what `parse` returns for the
i-th piece split at space, tab and newline, then NULL.  On `"a#b#c\n"` the
first call allocates 3 slots and stores 4 cells, and on `"ls # pwd"` the call
for the piece `"ls "` allocates 1 slot and stores 2 cells: nothing is defined
about the result; `"ls  #  pwd "` fits and gives `["ls"]` and `["pwd"]`. -/
theorem getCommandsChecked_splits_iff_fit (input : Option CStr) :
    getCommandsChecked input
        = (if storesFit (input.getD []) "#".toList ∧
              ∀ piece ∈ maximalRuns (input.getD []) "#".toList, storesFit piece " \t\n".toList
            then some ((maximalRuns (input.getD []) "#".toList).map
              (fun piece => parseChecked (some piece) " \t\n".toList) ++ [none])
            else none) ∧
    (∀ piece ∈ maximalRuns (input.getD []) "#".toList, storesFit piece " \t\n".toList →
      parseChecked (some piece) " \t\n".toList
        = some ⟨piece.length / 2, (maximalRuns piece " \t\n".toList).map some ++ [none]⟩) ∧
    parse (some "a#b#c\n".toList) "#".toList
        = some ⟨3, [some "a".toList, some "b".toList, some "c\n".toList, none]⟩ ∧
    getCommandsChecked (some "a#b#c\n".toList) = none ∧
    parse (some "ls ".toList) " \t\n".toList = some ⟨1, [some "ls".toList, none]⟩ ∧
    getCommandsChecked (some "ls # pwd".toList) = none ∧
    getCommandsChecked (some "ls  #  pwd ".toList)
        = some [some ⟨2, [some "ls".toList, none]⟩, some ⟨3, [some "pwd".toList, none]⟩, none] := by
  have hpiece : ∀ piece ∈ maximalRuns (input.getD []) "#".toList,
      storesFit piece " \t\n".toList →
      parseChecked (some piece) " \t\n".toList = some (argListOf piece) := by
    intro piece hmem hfit
    rw [parseChecked_eq, if_pos hfit, parse_eq _ _ (mem_maximalRuns_ne_nil _ _ piece hmem)]
    rfl
  refine ⟨?_, hpiece, by decide, by decide, by decide, by decide, by decide⟩
  rw [getCommandsChecked_eq]
  by_cases hfit : storesFit (input.getD []) "#".toList ∧
      ∀ piece ∈ maximalRuns (input.getD []) "#".toList, storesFit piece " \t\n".toList
  · have hfit2 : storesFit (input.getD []) "#".toList ∧
        ∀ t ∈ maximalRuns (input.getD []) "#".toList, storesFit t whitespace := hfit
    rw [if_pos hfit, if_pos hfit2]
    congr 2
    apply List.map_congr_left
    intro piece hmem
    exact (hpiece piece hmem (hfit.2 piece hmem)).symm
  · have hfit2 : ¬ (storesFit (input.getD []) "#".toList ∧
        ∀ t ∈ maximalRuns (input.getD []) "#".toList, storesFit t whitespace) := hfit
    rw [if_neg hfit, if_neg hfit2]

/-- C4 (what the code does): for a line made only of space, tab and newline
chars, `getCommands` returns exactly one argument list with zero tokens only
when the line has at least four chars; for the lengths 1, 2 and 3 the call of
`parse` on the line stores two cells in a block of zero slots or one slot and
nothing is defined about the result.  The line `"\n"` is such a line. -/
theorem getCommandsChecked_whitespace_only (s : CStr) (hs : s ≠ [])
    (hws : ∀ c ∈ s, c ∈ " \t\n".toList) :
    getCommandsChecked (some s)
        = (if 4 ≤ s.length then some [some ⟨s.length / 2, [none]⟩, none] else none) ∧
    parse (some "\n".toList) "#".toList = some ⟨0, [some "\n".toList, none]⟩ ∧
    getCommandsChecked (some "\n".toList) = none := by
  refine ⟨?_, by decide, by decide⟩
  have hsep : maximalRuns s "#".toList = [s] := by
    apply maximalRuns_no_delim s _ hs
    intro c hc hmem
    have h1 := hws c hc
    simp at hmem h1
    subst hmem
    revert h1; decide
  have hnone : maximalRuns s whitespace = [] := maximalRuns_all_delim s _ hws
  have h1 : storesFit s "#".toList ↔ 4 ≤ s.length := by
    rw [storesFit_ne_nil s _ hs, hsep]
    simp only [List.length_singleton]; omega
  have h2 : storesFit s whitespace ↔ 2 ≤ s.length := by
    rw [storesFit_ne_nil s _ hs, hnone]
    simp only [List.length_nil]; omega
  rw [getCommandsChecked_eq, show (some s).getD [] = s from rfl, hsep]
  simp only [List.mem_singleton, forall_eq, h1, h2]
  by_cases h4 : 4 ≤ s.length
  · rw [if_pos ⟨h4, by omega⟩, if_pos h4]
    simp [argListOf, hnone, nullTerminated]
  · rw [if_neg (fun h => h4 h.1), if_neg h4]

theorem getCommandsChecked_whitespace_only_witness :
    getCommandsChecked (some "\n".toList)
        = (if 4 ≤ "\n".toList.length then some [some ⟨"\n".toList.length / 2, [none]⟩, none]
            else none) ∧
    parse (some "\n".toList) "#".toList = some ⟨0, [some "\n".toList, none]⟩ ∧
    getCommandsChecked (some "\n".toList) = none :=
  getCommandsChecked_whitespace_only "\n".toList (by decide) (by decide)

/-- C13 (what the code does): for a delimiter char `d` of `D`, rejoining the
tokens `parse` returns for `s` gives `s` without its leading and trailing
delimiters and with every delimiter run replaced by one `d`, and tokenizing
that string again gives the same tokens and the same string, only when the
stores of each call of `parse` fit its block.  On `"a b c"` the first call
allocates 2 slots and stores 4 cells; on `"a   b   "` the first call fits and
gives `"a b"`, on which the second call allocates 1 slot and stores 3 cells:
nothing is defined about the result. -/
theorem normalizeChecked_round_trip_iff_fit (s : CStr) (D : CStr) (d : Char) (hd : d ∈ D) :
    normalizeChecked d D s
        = (if storesFit s D then some (collapseDelims d D false (trimDelims D s)) else none) ∧
    (∀ n, normalizeChecked d D s = some n →
      (parseChecked (some n) D).map PtrList.tokens
          = (if storesFit n D then (parseChecked (some s) D).map PtrList.tokens else none) ∧
      normalizeChecked d D n = (if storesFit n D then some n else none)) ∧
    parse (some "a b c".toList) " \t\n".toList
        = some ⟨2, [some "a".toList, some "b".toList, some "c".toList, none]⟩ ∧
    normalizeChecked ' ' " \t\n".toList "a b c".toList = none ∧
    normalizeChecked ' ' " \t\n".toList "a   b   ".toList = some "a b".toList ∧
    normalizeChecked ' ' " \t\n".toList "a b".toList = none ∧
    normalizeChecked ' ' " \t\n".toList "  abc   def  ".toList = some "abc def".toList ∧
    normalizeChecked ' ' " \t\n".toList "abc def".toList = some "abc def".toList := by
  refine ⟨?_, ?_, by decide, by decide, by decide, by decide, by decide, by decide⟩
  · rw [normalizeChecked_eq, intercalate_runs_eq_collapse]
  · intro n hn
    rw [normalizeChecked_eq] at hn
    by_cases hfit : storesFit s D
    · rw [if_pos hfit] at hn
      injection hn with hn
      have hruns : maximalRuns n D = maximalRuns s D := by
        rw [← hn]; exact maximalRuns_rejoin d D hd s
      constructor
      · rw [parseChecked_tokens, parseChecked_tokens, if_pos hfit, hruns]
      · rw [normalizeChecked_eq, hruns, hn]
    · rw [if_neg hfit] at hn
      cases hn

theorem normalizeChecked_round_trip_iff_fit_witness :
    normalizeChecked ' ' " \t".toList "a  \t b   ".toList
      = (if storesFit "a  \t b   ".toList " \t".toList
          then some (collapseDelims ' ' " \t".toList false
            (trimDelims " \t".toList "a  \t b   ".toList))
          else none) :=
  (normalizeChecked_round_trip_iff_fit "a  \t b   ".toList " \t".toList ' ' (by decide)).1

/-- C14 (what the code does): every token of a block that `parse` returns is
non-empty and contains no delimiter char, and every token of a command list
that `getCommands` returns is non-empty and contains none of `#`, space, tab
and newline; but there is a block, or a command list, to speak of only when
the stores fit: on `"a b c d e f"` split at whitespace (7 cells for 5 slots) and
on the line `"ls\n"` (2 cells for 1 slot) nothing is defined about the
tokens. -/
theorem parseChecked_tokens_nonempty_delimiter_free (string : Option CStr) (D : CStr)
    (input : Option CStr) :
    (∀ p, parseChecked string D = some p → ∀ t ∈ p.tokens, t ≠ [] ∧ ∀ c ∈ t, c ∉ D) ∧
    (∀ commandList, getCommandsChecked input = some commandList →
      ∀ argList, some argList ∈ commandList →
        ∀ t ∈ argList.tokens, t ≠ [] ∧ ∀ c ∈ t, c ∉ "# \t\n".toList) ∧
    (∀ s, string = some s → ¬ storesFit s D → parseChecked string D = none) ∧
    parseChecked (some "a b c d e f".toList) " \t\n".toList = none ∧
    getCommandsChecked (some "ls\n".toList) = none ∧
    parseChecked (some "ab cd   ".toList) " \t\n".toList
        = some ⟨4, [some "ab".toList, some "cd".toList, none]⟩ ∧
    getCommandsChecked (some "ls  #  pwd ".toList)
        = some [some ⟨2, [some "ls".toList, none]⟩, some ⟨3, [some "pwd".toList, none]⟩, none] := by
  refine ⟨?_, ?_, ?_, by decide, by decide, by decide, by decide⟩
  · intro p hp
    cases string with
    | none =>
      have : p = ⟨1, [none]⟩ := by
        have h : parseChecked none D = some ⟨1, [none]⟩ := rfl
        rw [h] at hp; injection hp with hp; exact hp.symm
      subst this
      intro t ht
      simp [PtrList.tokens] at ht
    | some s =>
      rw [parseChecked_eq] at hp
      by_cases hfit : storesFit s D
      · rw [if_pos hfit] at hp
        obtain ⟨q, hq, _, ht⟩ := parse_tokens s D
        rw [hq] at hp
        injection hp with hp
        subst hp
        rw [ht]
        exact fun t hmem => tokens_of_maximalRuns s D t hmem
      · rw [if_neg hfit] at hp; cases hp
  · intro commandList hcl argList hmem t ht
    rw [getCommandsChecked_eq] at hcl
    split_ifs at hcl with hfit
    injection hcl with hcl
    subst hcl
    simp only [List.mem_append, List.mem_map, List.mem_singleton, Option.some.injEq,
      reduceCtorEq, or_false] at hmem
    obtain ⟨piece, hpiece, rfl⟩ := hmem
    rw [argListOf, tokens_nullTerminated] at ht
    refine ⟨mem_maximalRuns_ne_nil _ _ t ht, ?_⟩
    intro c hc
    obtain ⟨hws, hin⟩ := mem_maximalRuns_chars whitespace piece.length piece (le_refl _) t ht c hc
    obtain ⟨hsep, -⟩ := mem_maximalRuns_chars "#".toList _ _ (le_refl _) piece hpiece c hin
    have hsplit : "# \t\n".toList = "#".toList ++ whitespace := rfl
    rw [hsplit, List.mem_append]
    exact fun h => h.elim hsep hws
  · intro s hs hfit
    rw [hs, parseChecked_eq, if_neg hfit]

end MyShell
